import Mathlib

/-!
Verification development for the psy-level repository: the band calculator
`indicator/psy_levels.py` (`PsychologicalLevels.calc_psy_levels`) and the
breakout strategy state machine `strategy.py` (`PsyLevelsStrategy`).

Modelling conventions, shared by everything below:

* Timestamps are natural numbers: minutes since 2024-01-01 00:00 UTC.
  That date was a Monday and is day 1 of ISO week 1 of ISO year 2024,
  which makes Python's `weekday()` / `hour` / `minute` / `isocalendar()`
  accessors plain arithmetic on the minute count.
* Prices are exact rationals (the Python floats of the source hold exact
  decimal configuration constants in every claim under test).
* A pandas NaN band entry is `Option.none`; a defined entry is `some`.
* Python exceptions that the strategy code can raise (comparing a float
  with `None` in `update_trailing_tp`) are modelled with `Except Unit`.
-/

namespace PsyLevel

/-- Python `Timestamp.weekday()` (Monday = 0) of a time in minutes since the
Monday 2024-01-01 00:00 UTC epoch. -/
def weekdayOf (t : Nat) : Nat := t / 1440 % 7

/-- Python `Timestamp.hour` of a time in minutes since the epoch. -/
def hourOf (t : Nat) : Nat := t % 1440 / 60

/-- Python `Timestamp.minute` of a time in minutes since the epoch. -/
def minuteOf (t : Nat) : Nat := t % 60

/-- The anchor convention of the crypto branch of `calc_psy_levels`
(`weekday == 5 & hour == 22 & minute == 0`) and of
`should_update_weekly_levels` (`is_saturday_22`): Saturday 22:00:00 UTC. -/
def isSaturday22 (t : Nat) : Bool :=
  weekdayOf t == 5 && hourOf t == 22 && minuteOf t == 0

/-- Saturday 22:00 timestamps are exactly the minutes congruent to 8520
modulo one week (10080 minutes); 8520 = 5 days + 22 hours after Monday 00:00. -/
theorem isSaturday22_iff_mod (t : Nat) : isSaturday22 t = true ↔ t % 10080 = 8520 := by
  simp only [isSaturday22, weekdayOf, hourOf, minuteOf, Bool.and_eq_true, beq_iff_eq]
  omega

/-- Gregorian leap-year rule, as used by Python's `datetime` module. -/
def isLeapYear (y : Nat) : Bool := (y % 4 == 0 && y % 100 != 0) || y % 400 == 0

/-- Number of days of Gregorian year `y`. -/
def daysInYear (y : Nat) : Nat := if isLeapYear y then 366 else 365

/-- Day number (days since 2024-01-01) of January 1 of year `2024 + n`. -/
def janFirstDay : Nat → Nat
  | 0 => 0
  | n + 1 => janFirstDay n + daysInYear (2024 + n)

/-- Day number of January 4 of year `2024 + n`. -/
def janFourthDay (n : Nat) : Nat := janFirstDay n + 3

/-- Day number of the Monday of ISO week 1 of year `2024 + n`: the Monday of
the week containing January 4 (CPython's internal `_isoweek1monday`).
Day 0 of the epoch is a Monday, so flooring to a multiple of 7 lands on a
Monday. -/
def isoWeek1Monday (n : Nat) : Nat := janFourthDay n - janFourthDay n % 7

/-- Largest year index `k ≤ fuel` with `janFirstDay k ≤ d` (linear search). -/
def calYearIdxGo (d : Nat) : Nat → Nat
  | 0 => 0
  | n + 1 => if janFirstDay (n + 1) ≤ d then n + 1 else calYearIdxGo d n

/-- Index `n` of the Gregorian calendar year `2024 + n` containing day `d`. -/
def calYearIdx (d : Nat) : Nat := calYearIdxGo d (d / 365 + 1)

/-- ISO year index of day `d`: the calendar year, moved one back when `d`
precedes that year's ISO week 1 and one forward when `d` already reaches the
next year's ISO week 1 (CPython `date.isocalendar`). -/
def isoYearIdx (d : Nat) : Nat :=
  if d < isoWeek1Monday (calYearIdx d) then calYearIdx d - 1
  else if isoWeek1Monday (calYearIdx d + 1) ≤ d then calYearIdx d + 1
  else calYearIdx d

/-- ISO week number of day `d`: Python's `date.isocalendar()[1]`. -/
def isoWeekOfDay (d : Nat) : Nat := (d - isoWeek1Monday (isoYearIdx d)) / 7 + 1

/-- `current_time.isocalendar()[1]` of a time in minutes since the epoch. -/
def isoWeekOf (t : Nat) : Nat := isoWeekOfDay (t / 1440)

theorem daysInYear_bounds (y : Nat) : 365 ≤ daysInYear y ∧ daysInYear y ≤ 366 := by
  unfold daysInYear; split <;> omega

theorem janFirstDay_succ (n : Nat) :
    janFirstDay n + 365 ≤ janFirstDay (n + 1) ∧
      janFirstDay (n + 1) ≤ janFirstDay n + 366 := by
  have h := daysInYear_bounds (2024 + n)
  simp only [janFirstDay]; omega

theorem janFirstDay_lb (n : Nat) : 365 * n ≤ janFirstDay n := by
  induction n with
  | zero => simp [janFirstDay]
  | succ k ih =>
    have h := janFirstDay_succ k
    omega

theorem calYearIdxGo_spec (d : Nat) (n : Nat) (h : d < janFirstDay (n + 1)) :
    janFirstDay (calYearIdxGo d n) ≤ d ∧ d < janFirstDay (calYearIdxGo d n + 1) := by
  induction n with
  | zero => simpa [calYearIdxGo, janFirstDay] using h
  | succ k ih =>
    simp only [calYearIdxGo]
    split
    · exact ⟨by assumption, h⟩
    · exact ih (by omega)

/-- The calendar-year search is correct: day `d` lies inside year `calYearIdx d`. -/
theorem calYearIdx_spec (d : Nat) :
    janFirstDay (calYearIdx d) ≤ d ∧ d < janFirstDay (calYearIdx d + 1) := by
  have hfuel : d < janFirstDay (d / 365 + 1 + 1) := by
    have h := janFirstDay_lb (d / 365 + 1 + 1)
    omega
  exact calYearIdxGo_spec d _ hfuel

theorem isoWeek1Monday_le (n : Nat) : isoWeek1Monday n ≤ janFirstDay n + 3 := by
  unfold isoWeek1Monday janFourthDay; omega

theorem isoWeek1Monday_ge (n : Nat) : janFirstDay n ≤ isoWeek1Monday n + 3 := by
  unfold isoWeek1Monday janFourthDay
  have h : janFirstDay n % 7 ≤ 6 := by omega
  omega

theorem isoWeek1Monday_gap (n : Nat) :
    isoWeek1Monday n + 359 ≤ isoWeek1Monday (n + 1) := by
  have h1 := isoWeek1Monday_le n
  have h2 := isoWeek1Monday_ge (n + 1)
  have h3 := janFirstDay_succ n
  omega

theorem isoWeek1Monday_mono {m n : Nat} (h : m ≤ n) :
    isoWeek1Monday m ≤ isoWeek1Monday n := by
  induction h with
  | refl => exact Nat.le_refl _
  | step _ ih =>
    rename_i k _
    show isoWeek1Monday m ≤ isoWeek1Monday (k + 1)
    have := isoWeek1Monday_gap k
    omega

/-- Day `d` lies in the half-open ISO-year interval selected by `isoYearIdx`. -/
theorem isoYearIdx_spec (d : Nat) :
    isoWeek1Monday (isoYearIdx d) ≤ d ∧ d < isoWeek1Monday (isoYearIdx d + 1) := by
  obtain ⟨hlo, hhi⟩ := calYearIdx_spec d
  unfold isoYearIdx
  split
  · rename_i hlt
    have hn1 : 1 ≤ calYearIdx d := by
      by_contra h0
      have h00 : calYearIdx d = 0 := by omega
      rw [h00] at hlt
      have : isoWeek1Monday 0 = 0 := by decide
      omega
    have heq : calYearIdx d - 1 + 1 = calYearIdx d := by omega
    rw [heq]
    refine ⟨?_, hlt⟩
    have h1 := isoWeek1Monday_le (calYearIdx d - 1)
    have h2 := janFirstDay_succ (calYearIdx d - 1)
    rw [heq] at h2
    omega
  · split
    · rename_i hge
      refine ⟨hge, ?_⟩
      have h1 := isoWeek1Monday_ge (calYearIdx d + 1)
      have h2 := isoWeek1Monday_gap (calYearIdx d + 1)
      omega
    · exact ⟨by omega, by omega⟩

/-- `isoYearIdx` is the unique index whose ISO-year interval contains `d`. -/
theorem isoYearIdx_eq_of_mem {d m : Nat}
    (h1 : isoWeek1Monday m ≤ d) (h2 : d < isoWeek1Monday (m + 1)) :
    isoYearIdx d = m := by
  obtain ⟨g1, g2⟩ := isoYearIdx_spec d
  rcases Nat.lt_trichotomy (isoYearIdx d) m with h | h | h
  · have hw := isoWeek1Monday_mono (show isoYearIdx d + 1 ≤ m by omega)
    omega
  · exact h
  · have hw := isoWeek1Monday_mono (show m + 1 ≤ isoYearIdx d by omega)
    omega

/-- The core calendar fact behind once-per-week rollover: a date and the date
one week later never share their ISO week number, because within one ISO year
the number advances and at an ISO new year it wraps from at least 51 to 1. -/
theorem isoWeekOfDay_add_seven_ne (d : Nat) : isoWeekOfDay (d + 7) ≠ isoWeekOfDay d := by
  obtain ⟨h1, h2⟩ := isoYearIdx_spec d
  set m := isoYearIdx d with hm
  rcases Nat.lt_or_ge (d + 7) (isoWeek1Monday (m + 1)) with hcase | hcase
  · -- same ISO year: the week number increments
    have he : isoYearIdx (d + 7) = m := isoYearIdx_eq_of_mem (by omega) hcase
    unfold isoWeekOfDay
    rw [he, ← hm]
    omega
  · -- next ISO year: new week number is 1, old one is at least 51
    have hgap := isoWeek1Monday_gap (m + 1)
    have he : isoYearIdx (d + 7) = m + 1 := isoYearIdx_eq_of_mem hcase (by omega)
    unfold isoWeekOfDay
    rw [he, ← hm]
    have hbig := isoWeek1Monday_gap m
    -- d - isoWeek1Monday m ≥ 352, so the old week number is ≥ 51 > 1
    omega

/-- Two consecutive Saturday-22:00 anchors (7 days = 10080 minutes apart)
always carry different `isocalendar()[1]` week numbers. -/
theorem isoWeekOf_anchor_succ_ne (t : Nat) : isoWeekOf (t + 10080) ≠ isoWeekOf t := by
  unfold isoWeekOf
  have h : (t + 10080) / 1440 = t / 1440 + 7 := by omega
  rw [h]
  exact isoWeekOfDay_add_seven_ne (t / 1440)

/-! ## Band calculator: `PsychologicalLevels.calc_psy_levels` -/

/-- One row of the OHLC frame handed to `calc_psy_levels`. Only the fields the
band calculator reads (`High`, `Low`) are kept, beside the index timestamp. -/
structure OhlcRow where
  ts : Nat
  high : ℚ
  low : ℚ
  deriving Repr, DecidableEq

/-- `df.index` of a frame. -/
def indexOf (df : List OhlcRow) : List Nat := df.map OhlcRow.ts

/-- Insert a timestamp into a sorted list of timestamps. -/
def insertSorted (x : Nat) : List Nat → List Nat
  | [] => [x]
  | y :: ys => if x ≤ y then x :: y :: ys else y :: insertSorted x ys

/-- `sort_values()` on a list of timestamps (insertion sort; on the sorted
`DatetimeIndex` the source applies it to, it is the identity). -/
def sortNat (l : List Nat) : List Nat := l.foldr insertSorted []

/-- The crypto-branch anchor scan:
`df.index[(weekday == 5) & (hour == 22) & (minute == 0)].sort_values()`. -/
def sessionStarts (df : List OhlcRow) : List Nat :=
  sortNat ((indexOf df).filter isSaturday22)

theorem mem_insertSorted {a x : Nat} {l : List Nat} :
    a ∈ insertSorted x l ↔ a = x ∨ a ∈ l := by
  induction l with
  | nil => simp [insertSorted]
  | cons y ys ih =>
    unfold insertSorted
    split
    · simp
    · simp only [List.mem_cons, ih]
      tauto

theorem mem_sortNat {a : Nat} {l : List Nat} : a ∈ sortNat l ↔ a ∈ l := by
  induction l with
  | nil => simp [sortNat]
  | cons x xs ih =>
    show a ∈ insertSorted x (sortNat xs) ↔ _
    rw [mem_insertSorted]
    simp [ih]

theorem insertSorted_of_le {x : Nat} {l : List Nat} (h : ∀ y ∈ l, x ≤ y) :
    insertSorted x l = x :: l := by
  cases l with
  | nil => rfl
  | cons y ys =>
    unfold insertSorted
    rw [if_pos (h y (by simp))]

/-- Sorting an already-sorted list is the identity. -/
theorem sortNat_eq_self {l : List Nat} (h : l.Pairwise (· ≤ ·)) : sortNat l = l := by
  induction l with
  | nil => rfl
  | cons x xs ih =>
    show insertSorted x (sortNat xs) = x :: xs
    rw [ih h.of_cons, insertSorted_of_le (fun y hy => List.rel_of_pairwise_cons h hy)]

/-- Rows selected by the mask `(df.index >= lo) & (df.index < hi)`. -/
def rowsInWindow (df : List OhlcRow) (lo hi : Nat) : List OhlcRow :=
  df.filter (fun r => lo ≤ r.ts && r.ts < hi)

/-- Python `max` / pandas `Series.max` over a nonempty collection, folding from
the first element. -/
def pyMax (x : ℚ) (xs : List ℚ) : ℚ := xs.foldl max x

/-- Python `min` / pandas `Series.min` over a nonempty collection. -/
def pyMin (x : ℚ) (xs : List ℚ) : ℚ := xs.foldl min x

/-- One sub-window contribution of the collection loop: when the window mask
has any rows, the rows' High-max and Low-min; otherwise nothing. -/
def hlOfWindow (df : List OhlcRow) (lo hi : Nat) : Option (ℚ × ℚ) :=
  match rowsInWindow df lo hi with
  | [] => none
  | r :: rs => some (pyMax r.high (rs.map OhlcRow.high), pyMin r.low (rs.map OhlcRow.low))

/-- The seven window bounds visited for one anchor `a`, in source order: the
hour before the session start (`init_start = start_time - 1h`), then
`for h in range(6)` the hours `[a + h, a + h + 1)`. -/
def windowBounds (a : Nat) : List (Nat × Nat) :=
  (a - 60, a) :: (List.range 6).map (fun h => (a + 60 * h, a + 60 * h + 60))

/-- The `highs`/`lows` arrays built by the window loop of `calc_psy_levels`
for one anchor: each sub-window with data appends its High-max and Low-min,
empty sub-windows append nothing. -/
def windowHL (df : List OhlcRow) (a : Nat) : List ℚ × List ℚ :=
  (windowBounds a).foldl
    (fun acc w =>
      match hlOfWindow df w.1 w.2 with
      | none => acc
      | some hl => (acc.1 ++ [hl.1], acc.2 ++ [hl.2]))
    ([], [])

/-- The `(psy_hi, psy_lo)` pair computed for one anchor: `max(highs)` and
`min(lows)` under the `if highs and lows:` guard, `none` when the guard fails. -/
def bandFor (df : List OhlcRow) (a : Nat) : Option (ℚ × ℚ) :=
  match windowHL df a with
  | (h :: hs, l :: ls) => some (pyMax h hs, pyMin l ls)
  | _ => none

/-- `end_time` of the `i`-th session: the next session start when there is
one, otherwise `df.index[-1]`. -/
def sessionEnd (starts : List Nat) (lastTs : Nat) (i : Nat) : Nat :=
  if i + 1 < starts.length then starts.getD (i + 1) 0 else lastTs

/-- The assignment loop of `calc_psy_levels` over an explicit list of session
starts: each session with a defined band writes that band to every timestamp
of `week_mask = (index >= start) & (index < end)`; later sessions overwrite.
The result maps a row timestamp to the band columns it would carry, `none`
standing for the initial `np.nan`. -/
def applySessions (df : List OhlcRow) (starts : List Nat) (lastTs : Nat) :
    Nat → Option (ℚ × ℚ) :=
  (List.range starts.length).foldl
    (fun acc i =>
      match bandFor df (starts.getD i 0) with
      | none => acc
      | some b => fun t =>
          if starts.getD i 0 ≤ t ∧ t < sessionEnd starts lastTs i then some b else acc t)
    (fun _ => none)

/-- The `psy_hi`/`psy_lo` columns produced by `calc_psy_levels`, as a function
of the row timestamp. -/
def psyAssign (df : List OhlcRow) : Nat → Option (ℚ × ℚ) :=
  applySessions df (sessionStarts df) ((indexOf df).getLastD 0)

/-! ## Claim C1: per-anchor band value -/

/-- The rows of the `j`-th hourly sub-interval (`j = 0 .. 6`) of the defining
window `[a - 1h, a + 6h)`, as the claim partitions it. -/
def subWindowRows (df : List OhlcRow) (a j : Nat) : List OhlcRow :=
  rowsInWindow df (a - 60 + 60 * j) (a - 60 + 60 * j + 60)

/-- Per-hour high of a sub-interval, present exactly when the sub-interval
contains data. -/
def subHigh (df : List OhlcRow) (a j : Nat) : Option ℚ :=
  match subWindowRows df a j with
  | [] => none
  | r :: rs => some (pyMax r.high (rs.map OhlcRow.high))

/-- Per-hour low of a sub-interval, present exactly when the sub-interval
contains data. -/
def subLow (df : List OhlcRow) (a j : Nat) : Option ℚ :=
  match subWindowRows df a j with
  | [] => none
  | r :: rs => some (pyMin r.low (rs.map OhlcRow.low))

/-- Band of one anchor as claim C1 words it: max of the per-hour highs and min
of the per-hour lows over exactly those hourly sub-intervals of the 7-hour
window that contain data; undefined when none contains data. -/
def specBand (df : List OhlcRow) (a : Nat) : Option (ℚ × ℚ) :=
  match (List.range 7).filterMap (subHigh df a), (List.range 7).filterMap (subLow df a) with
  | h :: hs, l :: ls => some (pyMax h hs, pyMin l ls)
  | _, _ => none

theorem windowHL_foldl (df : List OhlcRow) (ws : List (Nat × Nat)) (acc : List ℚ × List ℚ) :
    ws.foldl
      (fun acc w =>
        match hlOfWindow df w.1 w.2 with
        | none => acc
        | some hl => (acc.1 ++ [hl.1], acc.2 ++ [hl.2]))
      acc
    = (acc.1 ++ ws.filterMap (fun w => (hlOfWindow df w.1 w.2).map Prod.fst),
       acc.2 ++ ws.filterMap (fun w => (hlOfWindow df w.1 w.2).map Prod.snd)) := by
  induction ws generalizing acc with
  | nil => simp
  | cons w rest ih =>
    simp only [List.foldl_cons, List.filterMap_cons]
    cases h : hlOfWindow df w.1 w.2 with
    | none => simp [h, ih]
    | some hl => simp [h, ih]

/-- Every Saturday-22:00 timestamp is at least one hour after the epoch, so
the `start_time - 1h` arithmetic never truncates. -/
theorem anchor_ge_60 {a : Nat} (h : isSaturday22 a = true) : 60 ≤ a := by
  rw [isSaturday22_iff_mod] at h
  omega

theorem windowBounds_eq (a : Nat) (h : 60 ≤ a) :
    windowBounds a
      = (List.range 7).map (fun j => (a - 60 + 60 * j, a - 60 + 60 * j + 60)) := by
  simp only [windowBounds, List.range_succ, List.range_zero, List.nil_append,
    List.cons_append, List.map_append, List.map_cons, List.map_nil]
  simp only [List.cons.injEq, Prod.mk.injEq, List.nil_eq, and_true]
  norm_num
  omega

theorem windowHL_eq_filterMap (df : List OhlcRow) (a : Nat) (h : 60 ≤ a) :
    windowHL df a
      = ((List.range 7).filterMap (subHigh df a), (List.range 7).filterMap (subLow df a)) := by
  unfold windowHL
  rw [windowHL_foldl, windowBounds_eq a h, List.filterMap_map, List.filterMap_map]
  simp only [List.nil_append, Prod.mk.injEq]
  constructor <;>
  · congr 1
    funext j
    simp only [Function.comp_apply, subHigh, subLow, subWindowRows, hlOfWindow]
    cases hr : rowsInWindow df (a - 60 + 60 * j) (a - 60 + 60 * j + 60) <;> rfl

theorem subHigh_eq_none_iff (df : List OhlcRow) (a j : Nat) :
    subHigh df a j = none ↔ subWindowRows df a j = [] := by
  unfold subHigh
  cases h : subWindowRows df a j <;> simp

/-- C1 (confirmed): for every anchor timestamp found in the input series, the
band computed by the window loop equals the spec-side aggregation over exactly
the hourly sub-intervals of `[anchor - 1h, anchor + 6h)` that contain data
(missing sub-intervals are skipped), and the band is undefined if and only if
none of the 7 sub-intervals contains data. -/
theorem C1_bandFor_eq_specBand (df : List OhlcRow) (a : Nat) (ha : a ∈ sessionStarts df) :
    bandFor df a = specBand df a ∧
      (bandFor df a = none ↔ ∀ j, j < 7 → subWindowRows df a j = []) := by
  have hsat : isSaturday22 a = true := by
    have hmem : a ∈ (indexOf df).filter isSaturday22 := mem_sortNat.mp ha
    exact (List.mem_filter.mp hmem).2
  have h60 : 60 ≤ a := anchor_ge_60 hsat
  have hw := windowHL_eq_filterMap df a h60
  have hiffH : ((List.range 7).filterMap (subHigh df a) = []
      ↔ ∀ j, j < 7 → subWindowRows df a j = []) := by
    rw [List.filterMap_eq_nil_iff]
    constructor
    · intro h j hj
      exact (subHigh_eq_none_iff df a j).mp (h j (List.mem_range.mpr hj))
    · intro h j hj
      exact (subHigh_eq_none_iff df a j).mpr (h j (List.mem_range.mp hj))
  constructor
  · unfold bandFor specBand
    rw [hw]
    cases hH : (List.range 7).filterMap (subHigh df a) <;>
      cases hL : (List.range 7).filterMap (subLow df a) <;> rfl
  · unfold bandFor
    rw [hw]
    cases hH : (List.range 7).filterMap (subHigh df a) with
    | nil => exact iff_of_true rfl (hiffH.mp hH)
    | cons h0 hs0 =>
      cases hL : (List.range 7).filterMap (subLow df a) with
      | nil =>
        -- a nonempty highs list with an empty lows list cannot happen:
        -- both are present for exactly the nonempty sub-intervals
        exfalso
        rw [List.filterMap_eq_nil_iff] at hL
        have hall : ∀ j, j < 7 → subWindowRows df a j = [] := by
          intro j hj
          have := hL j (List.mem_range.mpr hj)
          unfold subLow at this
          cases hr : subWindowRows df a j with
          | nil => rfl
          | cons r rs => rw [hr] at this; exact absurd this (by simp)
        have : (List.range 7).filterMap (subHigh df a) = [] := hiffH.mpr hall
        rw [hH] at this
        exact absurd this (by simp)
      | cons l0 ls0 =>
        simp only []
        constructor
        · intro hcontra
          exact absurd hcontra (by simp)
        · intro hall
          have : (List.range 7).filterMap (subHigh df a) = [] := hiffH.mpr hall
          rw [hH] at this
          exact absurd this (by simp)

/-- The source sorts an already-sorted `DatetimeIndex`; on such inputs the
sort is the identity, which lets concrete instances evaluate. -/
theorem sessionStarts_eq_filter (df : List OhlcRow)
    (h : ((indexOf df).filter isSaturday22).Sorted (· ≤ ·)) :
    sessionStarts df = (indexOf df).filter isSaturday22 :=
  sortNat_eq_self h

/-- A one-row series whose single row sits exactly on a Saturday-22:00 anchor. -/
def dfC1 : List OhlcRow := [⟨8520, 2, 1⟩]

/-- Witness for C1 at a concrete series: the anchor 8520 (Saturday 2024-01-06
22:00 UTC) is found, and the theorem applies to it. -/
theorem C1_bandFor_eq_specBand_witness :
    8520 ∈ sessionStarts dfC1 ∧
      (bandFor dfC1 8520 = specBand dfC1 8520 ∧
        (bandFor dfC1 8520 = none ↔ ∀ j, j < 7 → subWindowRows dfC1 8520 j = [])) :=
  have hm : 8520 ∈ sessionStarts dfC1 := by decide
  ⟨hm, C1_bandFor_eq_specBand dfC1 8520 hm⟩

/-! ## Claim C2: per-bar projection of the band -/

/-- Steps of the assignment fold whose week mask does not cover `t` leave the
value at `t` unchanged. -/
theorem applyFold_skip (df : List OhlcRow) (starts : List Nat) (lastTs : Nat) (t : Nat)
    (idxs : List Nat) (acc : Nat → Option (ℚ × ℚ))
    (h : ∀ i ∈ idxs, ¬(starts.getD i 0 ≤ t ∧ t < sessionEnd starts lastTs i)) :
    (idxs.foldl
      (fun acc i =>
        match bandFor df (starts.getD i 0) with
        | none => acc
        | some b => fun t' =>
            if starts.getD i 0 ≤ t' ∧ t' < sessionEnd starts lastTs i then some b
            else acc t')
      acc) t = acc t := by
  induction idxs generalizing acc with
  | nil => rfl
  | cons i rest ih =>
    simp only [List.foldl_cons]
    have hi := h i (by simp)
    have hrest : ∀ j ∈ rest, ¬(starts.getD j 0 ≤ t ∧ t < sessionEnd starts lastTs j) :=
      fun j hj => h j (by simp [hj])
    cases hb : bandFor df (starts.getD i 0) with
    | none => exact ih _ hrest
    | some b =>
      rw [ih _ hrest]
      exact if_neg hi

theorem getD_mono_of_sorted {l : List Nat} (h : l.Pairwise (· ≤ ·)) {i j : Nat}
    (hij : i ≤ j) (hj : j < l.length) : l.getD i 0 ≤ l.getD j 0 := by
  rcases Nat.eq_or_lt_of_le hij with rfl | hlt
  · exact Nat.le_refl _
  · have hi : i < l.length := Nat.lt_trans hlt hj
    rw [List.getD_eq_getElem l 0 hi, List.getD_eq_getElem l 0 hj]
    exact List.pairwise_iff_get.mp h ⟨i, hi⟩ ⟨j, hj⟩ hlt

/-- The assignment fold writes the `i`-th band to every timestamp of the
`i`-th projection window; later sessions do not touch it. -/
theorem psyAssign_projection (df : List OhlcRow)
    (hsort : (indexOf df).Pairwise (· < ·))
    (i : Nat) (hi : i < (sessionStarts df).length) (b : ℚ × ℚ)
    (hb : bandFor df ((sessionStarts df).getD i 0) = some b)
    (t : Nat)
    (h1 : (sessionStarts df).getD i 0 ≤ t)
    (h2 : t < sessionEnd (sessionStarts df) ((indexOf df).getLastD 0) i) :
    psyAssign df t = some b := by
  have hPle : (sessionStarts df).Pairwise (· ≤ ·) := by
    rw [sessionStarts_eq_filter df]
    · exact ((hsort.filter isSaturday22).imp Nat.le_of_lt)
    · exact ((hsort.filter isSaturday22).imp Nat.le_of_lt)
  unfold psyAssign applySessions
  have hrange : List.range (sessionStarts df).length
      = List.range (i + 1)
        ++ (List.range ((sessionStarts df).length - (i + 1))).map (fun x => (i + 1) + x) := by
    rw [← List.range_add]
    congr 1
    omega
  rw [hrange, List.foldl_append]
  rw [applyFold_skip]
  · rw [List.range_succ, List.foldl_append]
    simp only [List.foldl_cons, List.foldl_nil]
    rw [hb]
    simp only []
    rw [if_pos ⟨h1, h2⟩]
  · intro j hj
    simp only [List.mem_map, List.mem_range] at hj
    obtain ⟨x, hx, rfl⟩ := hj
    intro ⟨hc1, _⟩
    have hnext : i + 1 < (sessionStarts df).length := by omega
    have hend : sessionEnd (sessionStarts df) ((indexOf df).getLastD 0) i
        = (sessionStarts df).getD (i + 1) 0 := by
      unfold sessionEnd
      rw [if_pos hnext]
    have hmono : (sessionStarts df).getD (i + 1) 0 ≤ (sessionStarts df).getD (i + 1 + x) 0 :=
      getD_mono_of_sorted hPle (by omega) (by omega)
    omega

/-- C2 (amended): every row timestamp inside the `i`-th projection window
carries exactly the `i`-th anchor's band — a step function with no
interpolation; the window is `[anchor_i, anchor_at_i_plus_1)`, and for the last
anchor `[anchor, df.index[-1])`, which excludes the final row of the series
(the source masks with a strict `<` against `df.index[-1]`). -/
theorem C2_projection (df : List OhlcRow)
    (hsort : (indexOf df).Pairwise (· < ·))
    (i : Nat) (hi : i < (sessionStarts df).length) (b : ℚ × ℚ)
    (hb : bandFor df ((sessionStarts df).getD i 0) = some b)
    (t : Nat)
    (h1 : (sessionStarts df).getD i 0 ≤ t)
    (h2 : t < sessionEnd (sessionStarts df) ((indexOf df).getLastD 0) i) :
    psyAssign df t = some b :=
  psyAssign_projection df hsort i hi b hb t h1 h2

/-- A three-row hourly series around the single anchor 8520: rows at 21:00,
22:00, 23:00 of Saturday 2024-01-06. -/
def dfC2 : List OhlcRow := [⟨8460, 2, 1⟩, ⟨8520, 2, 1⟩, ⟨8580, 2, 1⟩]

/-- Counterexample to C2 as stated: the last anchor's band is defined, the
claim places the final bar (`df.index[-1] = 8580`) inside the last projection
window, yet the final row carries no band value. -/
theorem C2_counterexample :
    sessionStarts dfC2 = [8520] ∧
      bandFor dfC2 8520 = some (2, 1) ∧
      (indexOf dfC2).getLastD 0 = 8580 ∧
      psyAssign dfC2 8580 = none := by
  have hs : sessionStarts dfC2 = [8520] := by
    rw [sessionStarts_eq_filter dfC2 (by decide)]
    decide
  refine ⟨hs, by decide, by decide, ?_⟩
  unfold psyAssign
  rw [hs]
  decide

/-- Witness for the amended C2 at the same concrete series: the anchor row
itself carries the band. -/
theorem C2_projection_witness : psyAssign dfC2 8520 = some (2, 1) := by
  have hs : sessionStarts dfC2 = [8520] := by
    rw [sessionStarts_eq_filter dfC2 (by decide)]
    decide
  exact C2_projection dfC2 (by decide) 0 (by rw [hs]; decide) (2, 1)
    (by rw [hs]; decide) 8520 (by rw [hs]; decide) (by rw [hs]; decide)

/-! ## Strategy state machine: `PsyLevelsStrategy` -/

/-- The strategy parameters read from `STRATEGY_CONFIG`. -/
structure StratConfig where
  entry_offset : ℚ
  take_profit : ℚ
  risk_per_trade : ℚ
  sl_offset : ℚ
  trailing_offset : ℚ
  deriving Repr, DecidableEq

/-- The values of `config.py`: entry_offset 0.0001, take_profit 0.01,
risk_per_trade 0.01, sl_offset 0.0001, trailing_offset 0.005. -/
def defaultConfig : StratConfig :=
  ⟨1 / 10000, 1 / 100, 1 / 100, 1 / 10000, 5 / 1000⟩

/-- Trade direction. -/
inductive Dir where
  | long
  | short
  deriving Repr, DecidableEq

/-- The open trade object (`self.trades[-1]`) owned by the external execution
engine: the realized entry price and the mutable stop/target pair, `None`
until attached. -/
structure Trade where
  dir : Dir
  entry_price : ℚ
  sl : Option ℚ
  tp : Option ℚ
  deriving Repr, DecidableEq

/-- The strategy's mutable attributes set up in `init`, together with the
engine-owned position, as one world state. -/
structure World where
  current_week : Option Nat
  trade_blocked_until : Option Nat
  pending_sl : Option ℚ
  pending_tp : Option ℚ
  position : Option Trade
  deriving Repr, DecidableEq

/-- The state established by `init`: everything `None`, no position. -/
def initWorld : World := ⟨none, none, none, none, none⟩

/-- Per-bar inputs the strategy reads: timestamp and close of the current bar,
the band columns aligned to it (`none` = NaN), and the engine's equity. -/
structure BarIn where
  ts : Nat
  close : ℚ
  psy_hi : Option ℚ
  psy_lo : Option ℚ
  equity : ℚ
  deriving Repr, DecidableEq

/-- An entry instruction submitted through `self.buy` / `self.sell`. -/
structure EntryOrder where
  dir : Dir
  size : ℚ
  deriving Repr, DecidableEq

/-- Per-bar outputs to the engine: at most one entry order, whether the open
position was force-closed, and whether the weekly rollover fired. -/
structure StepOut where
  order : Option EntryOrder
  closed : Bool
  rolled : Bool
  deriving Repr, DecidableEq

/-- `should_update_weekly_levels`:
`(is_saturday_22 or self.current_week is None) and (self.current_week != this_week)`
with `this_week = current_time.isocalendar()[1]`. -/
def shouldUpdateWeeklyLevels (current_week : Option Nat) (t : Nat) : Bool :=
  (isSaturday22 t || current_week.isNone) && current_week != some (isoWeekOf t)

/-- `update_trailing_tp`: once profit reaches `take_profit` from the fill
price, recompute a trailing target `trailing_offset` beyond the current price
and replace the existing one only when strictly more favorable. Comparing the
new value against a target that is still `None` raises a Python `TypeError`,
modelled as `.error ()`. -/
def updateTrailingTp (cfg : StratConfig) (price : ℚ) (t : Trade) : Except Unit Trade :=
  match t.dir with
  | .long =>
    if price ≥ t.entry_price * (1 + cfg.take_profit) then
      let new_tp := price * (1 + cfg.trailing_offset)
      match t.tp with
      | none => .error ()
      | some tp => if new_tp > tp then .ok { t with tp := some new_tp } else .ok t
    else .ok t
  | .short =>
    if price ≤ t.entry_price * (1 - cfg.take_profit) then
      let new_tp := price * (1 - cfg.trailing_offset)
      match t.tp with
      | none => .error ()
      | some tp => if new_tp < tp then .ok { t with tp := some new_tp } else .ok t
    else .ok t

/-- Python's `round` on an exact rational: nearest integer, halves to even. -/
def pyRound (q : ℚ) : ℤ :=
  if q - ⌊q⌋ < 1 / 2 then ⌊q⌋
  else if (1 : ℚ) / 2 < q - ⌊q⌋ then ⌊q⌋ + 1
  else if ⌊q⌋ % 2 = 0 then ⌊q⌋ else ⌊q⌋ + 1

/-- The stop level of `place_breakout_trade`: beyond the opposite band edge by
`sl_offset`. -/
def stopLevelOf (cfg : StratConfig) (hi lo : ℚ) : Dir → ℚ
  | .long => lo * (1 - cfg.sl_offset)
  | .short => hi * (1 + cfg.sl_offset)

/-- The risk distance `size_diff` of `place_breakout_trade`. -/
def sizeDiffOf (cfg : StratConfig) (hi lo : ℚ) (dir : Dir) (fill_price : ℚ) : ℚ :=
  match dir with
  | .long => |fill_price - stopLevelOf cfg hi lo .long|
  | .short => |stopLevelOf cfg hi lo .short - fill_price|

/-- `place_breakout_trade`: discard the entry when the risk distance is below
`1e-8`; otherwise size by risk budget (`int(round(size))` when at least 1),
submit the market order and store the desired stop/target for the next bar. -/
def placeBreakoutTrade (cfg : StratConfig) (equity : ℚ) (hi lo : ℚ) (dir : Dir)
    (fill_price : ℚ) (w : World) : World × Option EntryOrder :=
  let sl := stopLevelOf cfg hi lo dir
  let size_diff := sizeDiffOf cfg hi lo dir fill_price
  if size_diff < 1 / 10 ^ 8 then (w, none)
  else
    let size0 := equity * cfg.risk_per_trade / size_diff
    let size := if size0 ≥ 1 then (pyRound size0 : ℚ) else size0
    let desired_tp := match dir with
      | .long => fill_price * (1 + cfg.take_profit)
      | .short => fill_price * (1 - cfg.take_profit)
    ({ w with pending_sl := some sl, pending_tp := some desired_tp },
      some ⟨dir, size⟩)

/-- `buy_breakout = hi * (1 + entry_offset)` of `check_breakouts`. -/
def buyBreakoutLevel (cfg : StratConfig) (hi : ℚ) : ℚ := hi * (1 + cfg.entry_offset)

/-- `sell_breakout = lo * (1 - entry_offset)` of `check_breakouts`. -/
def sellBreakoutLevel (cfg : StratConfig) (lo : ℚ) : ℚ := lo * (1 - cfg.entry_offset)

/-- `check_breakouts`: a long entry at or above the buy threshold, otherwise a
short entry at or below the sell threshold. -/
def checkBreakouts (cfg : StratConfig) (equity : ℚ) (hi lo : ℚ) (price : ℚ)
    (w : World) : World × Option EntryOrder :=
  if price ≥ buyBreakoutLevel cfg hi then
    placeBreakoutTrade cfg equity hi lo .long price w
  else if price ≤ sellBreakoutLevel cfg lo then
    placeBreakoutTrade cfg equity hi lo .short price w
  else (w, none)

/-- `set_sl_tp_for_new_position`: when a position exists and a bracket is
still pending from the prior bar's entry decision, attach whichever of
stop/target is still unset, then clear both pending slots. -/
def setSlTpForNewPosition (w : World) : World :=
  match w.position with
  | some t =>
    if w.pending_sl.isSome || w.pending_tp.isSome then
      let t1 := if t.sl.isNone && w.pending_sl.isSome then { t with sl := w.pending_sl } else t
      let t2 := if t1.tp.isNone && w.pending_tp.isSome then { t1 with tp := w.pending_tp } else t1
      { w with position := some t2, pending_sl := none, pending_tp := none }
    else w
  | none => w

/-- The `next` method that actually executes (the second definition of the
class body, lines 180-210): pending-bracket attachment, NaN guard, weekly
rollover (force-close, record week, block until anchor + 6h), cooldown gate,
trailing management while in a position, breakout detection otherwise. -/
def stratNext (cfg : StratConfig) (w0 : World) (b : BarIn) :
    Except Unit (World × StepOut) :=
  let w1 := setSlTpForNewPosition w0
  match b.psy_hi, b.psy_lo with
  | some hi, some lo =>
    let rolled := shouldUpdateWeeklyLevels w1.current_week b.ts
    let closed := rolled && w1.position.isSome
    let w2 :=
      if rolled then
        { w1 with position := none,
                  current_week := some (isoWeekOf b.ts),
                  trade_blocked_until := some (b.ts + 360) }
      else w1
    if w2.trade_blocked_until.any (fun d => b.ts < d) then
      .ok (w2, ⟨none, closed, rolled⟩)
    else
      match w2.position with
      | some t =>
        match updateTrailingTp cfg b.close t with
        | .error e => .error e
        | .ok t' => .ok ({ w2 with position := some t' }, ⟨none, closed, rolled⟩)
      | none =>
        let p := checkBreakouts cfg b.equity hi lo b.close w2
        .ok (p.1, ⟨p.2, closed, rolled⟩)
  | _, _ => .ok (w1, ⟨none, false, false⟩)

/-- The first, shadowed `next` definition (lines 74-101): the same per-bar
logic but without the pending-bracket attachment step. -/
def stratNextFirst (cfg : StratConfig) (w1 : World) (b : BarIn) :
    Except Unit (World × StepOut) :=
  match b.psy_hi, b.psy_lo with
  | some hi, some lo =>
    let rolled := shouldUpdateWeeklyLevels w1.current_week b.ts
    let closed := rolled && w1.position.isSome
    let w2 :=
      if rolled then
        { w1 with position := none,
                  current_week := some (isoWeekOf b.ts),
                  trade_blocked_until := some (b.ts + 360) }
      else w1
    if w2.trade_blocked_until.any (fun d => b.ts < d) then
      .ok (w2, ⟨none, closed, rolled⟩)
    else
      match w2.position with
      | some t =>
        match updateTrailingTp cfg b.close t with
        | .error e => .error e
        | .ok t' => .ok ({ w2 with position := some t' }, ⟨none, closed, rolled⟩)
      | none =>
        let p := checkBreakouts cfg b.equity hi lo b.close w2
        .ok (p.1, ⟨p.2, closed, rolled⟩)
  | _, _ => .ok (w1, ⟨none, false, false⟩)

/-- The external execution engine between bars: a submitted market order is
filled at the engine's price (not known to the strategy when it ordered),
creating the open trade with bare stop/target. -/
def engineFill (fill : ℚ) (w : World) (out : StepOut) : World :=
  match out.order with
  | some o => { w with position := some ⟨o.dir, fill, none, none⟩ }
  | none => w

/-- Run the executed `next` over a list of bars, filling each submitted order
at the fill-oracle price of its bar index and logging the timestamps at which
the weekly rollover fired. -/
def stratRunAux (cfg : StratConfig) (fills : Nat → ℚ) :
    Nat → World → List Nat → List BarIn → Except Unit (World × List Nat)
  | _, w, log, [] => .ok (w, log)
  | k, w, log, b :: rest =>
    match stratNext cfg w b with
    | .error e => .error e
    | .ok (w1, out) =>
      stratRunAux cfg fills (k + 1) (engineFill (fills k) w1 out)
        (log ++ if out.rolled then [b.ts] else []) rest

/-- A whole backtest run from the `init` state. -/
def stratRun (cfg : StratConfig) (fills : Nat → ℚ) (bars : List BarIn) :
    Except Unit (World × List Nat) :=
  stratRunAux cfg fills 0 initWorld [] bars

/-- The entry order issued by one step; a raised error issues nothing. -/
def orderOf (r : Except Unit (World × StepOut)) : Option EntryOrder :=
  match r with
  | .ok (_, out) => out.order
  | .error _ => none

theorem setSlTp_blocked (w : World) :
    (setSlTpForNewPosition w).trade_blocked_until = w.trade_blocked_until := by
  obtain ⟨cw, tbu, psl, ptp, pos⟩ := w
  cases pos with
  | none => rfl
  | some t =>
    simp only [setSlTpForNewPosition]
    split <;> rfl

theorem setSlTp_week (w : World) :
    (setSlTpForNewPosition w).current_week = w.current_week := by
  obtain ⟨cw, tbu, psl, ptp, pos⟩ := w
  cases pos with
  | none => rfl
  | some t =>
    simp only [setSlTpForNewPosition]
    split <;> rfl

/-! ## Claim C6: no entry while in cooldown -/

/-- C6 (confirmed): on any bar whose timestamp is strictly before the current
cooldown deadline, the step issues no entry order, wherever the close sits
relative to the breakout thresholds. -/
theorem C6_no_entry_in_cooldown (cfg : StratConfig) (w : World) (b : BarIn)
    (d : Nat) (hd : w.trade_blocked_until = some d) (hts : b.ts < d) :
    orderOf (stratNext cfg w b) = none := by
  have hb : (setSlTpForNewPosition w).trade_blocked_until = some d :=
    (setSlTp_blocked w).trans hd
  unfold stratNext
  cases hh : b.psy_hi with
  | none => rfl
  | some hi =>
    cases hl : b.psy_lo with
    | none => rfl
    | some lo =>
      dsimp only
      cases hroll : shouldUpdateWeeklyLevels (setSlTpForNewPosition w).current_week b.ts with
      | true =>
        simp only [↓reduceIte]
        split
        · rfl
        · rename_i hc
          refine absurd ?_ hc
          simp [Option.any]
      | false =>
        simp only [Bool.false_eq_true, ↓reduceIte]
        split
        · rfl
        · rename_i hc
          refine absurd ?_ hc
          rw [hb]
          simpa using hts

/-- Witness for C6: a concrete blocked state and a bar above the buy
threshold still issues nothing. -/
theorem C6_no_entry_in_cooldown_witness :
    orderOf (stratNext defaultConfig ⟨some 2, some 10440, none, none, none⟩
        ⟨10080, 50010, some 50000, some 49000, 1000000⟩) = none :=
  C6_no_entry_in_cooldown defaultConfig ⟨some 2, some 10440, none, none, none⟩
    ⟨10080, 50010, some 50000, some 49000, 1000000⟩ 10440 rfl (by decide)

/-! ## Claim C7: trailing target monotonicity -/

theorem updateTrailingTp_mono (cfg : StratConfig) (price : ℚ) (t : Trade) (v : ℚ)
    (htp : t.tp = some v) (t' : Trade) (h : updateTrailingTp cfg price t = .ok t') :
    t'.dir = t.dir ∧ t'.tp.isSome ∧
      (∀ v', t'.tp = some v' →
        (t.dir = Dir.long → v ≤ v') ∧ (t.dir = Dir.short → v' ≤ v)) := by
  have hne : Dir.long ≠ Dir.short := by decide
  unfold updateTrailingTp at h
  cases hdir : t.dir with
  | long =>
    rw [hdir] at h
    simp only [htp] at h
    split at h
    · split at h
      · rename_i hgt
        injection h with h
        subst h
        refine ⟨rfl, by simp, ?_⟩
        intro v' hv'
        simp only [Option.some.injEq] at hv'
        subst hv'
        exact ⟨fun _ => le_of_lt hgt, fun hc => absurd hc hne⟩
      · injection h with h
        subst h
        refine ⟨hdir, by rw [htp]; rfl, ?_⟩
        intro v' hv'
        rw [htp] at hv'
        injection hv' with hv'
        subst hv'
        exact ⟨fun _ => le_refl v, fun hc => absurd hc hne⟩
    · injection h with h
      subst h
      refine ⟨hdir, by rw [htp]; rfl, ?_⟩
      intro v' hv'
      rw [htp] at hv'
      injection hv' with hv'
      subst hv'
      exact ⟨fun _ => le_refl v, fun hc => absurd hc hne⟩
  | short =>
    have hne2 : Dir.short ≠ Dir.long := by decide
    rw [hdir] at h
    simp only [htp] at h
    split at h
    · split at h
      · rename_i hlt
        injection h with h
        subst h
        refine ⟨rfl, by simp, ?_⟩
        intro v' hv'
        simp only [Option.some.injEq] at hv'
        subst hv'
        exact ⟨fun hc => absurd hc hne2, fun _ => le_of_lt hlt⟩
      · injection h with h
        subst h
        refine ⟨hdir, by rw [htp]; rfl, ?_⟩
        intro v' hv'
        rw [htp] at hv'
        injection hv' with hv'
        subst hv'
        exact ⟨fun hc => absurd hc hne2, fun _ => le_refl v⟩
    · injection h with h
      subst h
      refine ⟨hdir, by rw [htp]; rfl, ?_⟩
      intro v' hv'
      rw [htp] at hv'
      injection hv' with hv'
      subst hv'
      exact ⟨fun hc => absurd hc hne2, fun _ => le_refl v⟩

/-- C7 (confirmed): over one bar of a position's life (a target is attached
and the position survives the bar), the target only ever moves favourably:
it never decreases for a long position and never increases for a short one. -/
theorem C7_trailing_monotone (cfg : StratConfig) (w : World) (b : BarIn)
    (t : Trade) (v : ℚ)
    (hpos : (setSlTpForNewPosition w).position = some t) (htp : t.tp = some v)
    (w' : World) (out : StepOut) (hok : stratNext cfg w b = .ok (w', out))
    (t' : Trade) (hpos' : w'.position = some t') :
    t'.dir = t.dir ∧ t'.tp.isSome ∧
      (∀ v', t'.tp = some v' →
        (t.dir = Dir.long → v ≤ v') ∧ (t.dir = Dir.short → v' ≤ v)) := by
  have hrefl : t' = t → t'.dir = t.dir ∧ t'.tp.isSome ∧
      (∀ v', t'.tp = some v' →
        (t.dir = Dir.long → v ≤ v') ∧ (t.dir = Dir.short → v' ≤ v)) := by
    rintro rfl
    refine ⟨rfl, by rw [htp]; rfl, ?_⟩
    intro v' hv'
    rw [htp] at hv'
    injection hv' with hv'
    subst hv'
    exact ⟨fun _ => le_refl v, fun _ => le_refl v⟩
  unfold stratNext at hok
  cases hh : b.psy_hi with
  | none =>
    rw [hh] at hok
    dsimp only at hok
    injection hok with hok
    injection hok with h1 h2
    subst h1
    apply hrefl
    rw [hpos] at hpos'
    injection hpos' with h
    exact h.symm
  | some hi =>
    cases hl : b.psy_lo with
    | none =>
      rw [hh, hl] at hok
      dsimp only at hok
      injection hok with hok
      injection hok with h1 h2
      subst h1
      apply hrefl
      rw [hpos] at hpos'
      injection hpos' with h
      exact h.symm
    | some lo =>
      rw [hh, hl] at hok
      dsimp only at hok
      cases hroll : shouldUpdateWeeklyLevels (setSlTpForNewPosition w).current_week b.ts with
      | true =>
        rw [hroll] at hok
        simp only [↓reduceIte] at hok
        rw [if_pos (show Option.any (fun d => decide (b.ts < d)) (some (b.ts + 360)) = true by
          simp only [Option.any, decide_eq_true_eq]; omega)] at hok
        injection hok with hok
        injection hok with h1 h2
        subst h1
        simp only [] at hpos'
        exact absurd hpos' (by simp)
      | false =>
        rw [hroll] at hok
        simp only [Bool.false_eq_true, ↓reduceIte] at hok
        cases hblk : Option.any (fun d => decide (b.ts < d))
            (setSlTpForNewPosition w).trade_blocked_until with
        | true =>
          rw [hblk] at hok
          simp only [↓reduceIte] at hok
          injection hok with hok
          injection hok with h1 h2
          subst h1
          apply hrefl
          rw [hpos] at hpos'
          injection hpos' with h
          exact h.symm
        | false =>
          rw [hblk] at hok
          simp only [Bool.false_eq_true, ↓reduceIte] at hok
          rw [hpos] at hok
          dsimp only at hok
          cases hupd : updateTrailingTp cfg b.close t with
          | error e =>
            rw [hupd] at hok
            simp at hok
          | ok t2 =>
            rw [hupd] at hok
            dsimp only at hok
            injection hok with hok
            injection hok with h1 h2
            subst h1
            simp only [] at hpos'
            injection hpos' with h
            subst h
            exact updateTrailingTp_mono cfg b.close t v htp _ hupd

/-- Concrete long trade before a trailing bar: target 101. -/
def tC7a : Trade := ⟨Dir.long, 100, some 99, some 101⟩

/-- The same trade after the bar: target trailed up to 102.51. -/
def tC7b : Trade := ⟨Dir.long, 100, some 99, some (10251 / 100)⟩

/-- Witness for C7 at a concrete bar: a long position with target 101 gets
its target trailed up to 102.51, never down. -/
theorem C7_trailing_monotone_witness :
    tC7b.dir = tC7a.dir ∧ tC7b.tp.isSome ∧
      (∀ v', tC7b.tp = some v' →
        (tC7a.dir = Dir.long → (101 : ℚ) ≤ v') ∧ (tC7a.dir = Dir.short → v' ≤ 101)) :=
  C7_trailing_monotone defaultConfig ⟨some 2, none, none, none, some tC7a⟩
    ⟨10080, 102, some 105, some 95, 1000000⟩ tC7a 101 rfl rfl
    ⟨some 2, none, none, none, some tC7b⟩ ⟨none, false, false⟩
    (by norm_num [stratNext, setSlTpForNewPosition, shouldUpdateWeeklyLevels, isSaturday22,
      weekdayOf, hourOf, minuteOf, isoWeekOf, isoWeekOfDay, isoYearIdx, calYearIdx, calYearIdxGo,
      janFirstDay, daysInYear, isLeapYear, janFourthDay, isoWeek1Monday, updateTrailingTp,
      Option.any, defaultConfig, tC7a, tC7b])
    tC7b rfl

/-! ## Claim C8: breakout scenario arithmetic -/

/-- C8 (confirmed): in the idle state with band (50000, 49000) and the
default offsets, the thresholds are exactly 50005 and 48995.1; a bar closing
at 50010 issues a long entry whose recorded stop and target are
49000 × 0.9999 = 48995.1 and 50010 × 1.01 = 50510.1. -/
theorem C8_breakout_scenario :
    buyBreakoutLevel defaultConfig 50000 = 50005 ∧
      sellBreakoutLevel defaultConfig 49000 = 48995.1 ∧
      (48995.1 : ℚ) = 49000 * (1 - 1 / 10000) ∧
      (50510.1 : ℚ) = 50010 * (1 + 1 / 100) ∧
      stratNext defaultConfig ⟨some 2, none, none, none, none⟩
          ⟨10080, 50010, some 50000, some 49000, 1000000⟩
        = .ok (⟨some 2, none, some 48995.1, some 50510.1, none⟩,
            ⟨some ⟨Dir.long, 10⟩, false, false⟩) := by
  refine ⟨?_, ?_, by norm_num, by norm_num, ?_⟩
  · norm_num [buyBreakoutLevel, defaultConfig]
  · norm_num [sellBreakoutLevel, defaultConfig]
  · norm_num [stratNext, setSlTpForNewPosition, shouldUpdateWeeklyLevels, isSaturday22,
      weekdayOf, hourOf, minuteOf, isoWeekOf, isoWeekOfDay, isoYearIdx, calYearIdx, calYearIdxGo,
      janFirstDay, daysInYear, isLeapYear, janFourthDay, isoWeek1Monday, checkBreakouts,
      placeBreakoutTrade, buyBreakoutLevel, sellBreakoutLevel, stopLevelOf, sizeDiffOf, pyRound,
      Option.any, defaultConfig, abs]

/-! ## Claim C10: the shadowed first `next` definition -/

/-- C10 (confirmed): the `next` that executes (the second definition) is, on
every state and bar, exactly the pending stop/target attachment step followed
by the body of the shadowed first definition; the two bodies differ only by
that attachment step. -/
theorem C10_next_shadowing (cfg : StratConfig) (w : World) (b : BarIn) :
    stratNext cfg w b = stratNextFirst cfg (setSlTpForNewPosition w) b := rfl

/-! ## Claim C5: position sizing -/

/-- Counterexample to C5 as stated: at the spec's own scenario the risk
quotient is 100000/10149 (about 9.85, not 985.3), and the issued size is
Python's `round` of it, 10 — neither 985 nor the floor 9. -/
theorem C5_counterexample :
    (placeBreakoutTrade defaultConfig 1000000 50000 49000 Dir.long 50010 initWorld).2
        = some ⟨Dir.long, 10⟩ ∧
      1000000 * ((1 : ℚ) / 100) / sizeDiffOf defaultConfig 50000 49000 Dir.long 50010
        = 100000 / 10149 ∧
      (1 : ℚ) ≤ 100000 / 10149 ∧
      ⌊(100000 : ℚ) / 10149⌋ = 9 ∧
      (10 : ℚ) ≠ ((9 : ℤ) : ℚ) ∧ (10 : ℚ) ≠ 985 := by
  refine ⟨?_, ?_, by norm_num, by norm_num, by norm_num, by norm_num⟩
  · norm_num [placeBreakoutTrade, sizeDiffOf, stopLevelOf, pyRound, defaultConfig, abs]
  · norm_num [sizeDiffOf, stopLevelOf, defaultConfig, abs]

/-- C5 (amended): whenever `place_breakout_trade` accepts the entry (risk
distance at least the 1e-8 epsilon), the issued size equals the raw risk
quotient `equity × risk_per_trade / distance` when that quotient is below 1,
and Python's `round` of it (banker's rounding, not floor) when at least 1. -/
theorem C5_sizing (cfg : StratConfig) (equity hi lo fill : ℚ) (dir : Dir) (w : World)
    (hd : 1 / 10 ^ 8 ≤ sizeDiffOf cfg hi lo dir fill) :
    (placeBreakoutTrade cfg equity hi lo dir fill w).2
      = some ⟨dir,
          if equity * cfg.risk_per_trade / sizeDiffOf cfg hi lo dir fill ≥ 1
          then (pyRound (equity * cfg.risk_per_trade / sizeDiffOf cfg hi lo dir fill) : ℚ)
          else equity * cfg.risk_per_trade / sizeDiffOf cfg hi lo dir fill⟩ := by
  unfold placeBreakoutTrade
  rw [if_neg (not_lt.mpr hd)]

/-- Witness for C5 at the spec scenario: the guard accepts and the size is
the rounded quotient. -/
theorem C5_sizing_witness :
    (1 / 10 ^ 8 : ℚ) ≤ sizeDiffOf defaultConfig 50000 49000 Dir.long 50010 ∧
      (placeBreakoutTrade defaultConfig 1000000 50000 49000 Dir.long 50010 initWorld).2
        = some ⟨Dir.long,
            if 1000000 * defaultConfig.risk_per_trade
                  / sizeDiffOf defaultConfig 50000 49000 Dir.long 50010 ≥ 1
            then (pyRound (1000000 * defaultConfig.risk_per_trade
                  / sizeDiffOf defaultConfig 50000 49000 Dir.long 50010) : ℚ)
            else 1000000 * defaultConfig.risk_per_trade
                  / sizeDiffOf defaultConfig 50000 49000 Dir.long 50010⟩ :=
  have hd : (1 / 10 ^ 8 : ℚ) ≤ sizeDiffOf defaultConfig 50000 49000 Dir.long 50010 := by
    norm_num [sizeDiffOf, stopLevelOf, defaultConfig, abs]
  ⟨hd, C5_sizing defaultConfig 1000000 50000 49000 50010 Dir.long initWorld hd⟩

/-! ## Claim C4: the bracket attached after an entry -/

/-- When a step issues an entry order, the bar's band was defined and the
pending bracket stored in the resulting state is computed from the decision
bar's close and the band edge; no position is left open by that step. -/
theorem stratNext_order_pending (cfg : StratConfig) (w : World) (b : BarIn)
    (w1 : World) (out : StepOut) (hok : stratNext cfg w b = .ok (w1, out))
    (o : EntryOrder) (ho : out.order = some o) :
    ∃ hi lo, b.psy_hi = some hi ∧ b.psy_lo = some lo ∧
      w1.pending_sl = some (stopLevelOf cfg hi lo o.dir) ∧
      w1.pending_tp = some (match o.dir with
        | Dir.long => b.close * (1 + cfg.take_profit)
        | Dir.short => b.close * (1 - cfg.take_profit)) ∧
      w1.position = none := by
  unfold stratNext at hok
  cases hh : b.psy_hi with
  | none =>
    rw [hh] at hok
    dsimp only at hok
    injection hok with hok
    injection hok with h1 h2
    rw [← h2] at ho
    simp at ho
  | some hi =>
    cases hl : b.psy_lo with
    | none =>
      rw [hh, hl] at hok
      dsimp only at hok
      injection hok with hok
      injection hok with h1 h2
      rw [← h2] at ho
      simp at ho
    | some lo =>
      rw [hh, hl] at hok
      dsimp only at hok
      cases hroll : shouldUpdateWeeklyLevels (setSlTpForNewPosition w).current_week b.ts with
      | true =>
        rw [hroll] at hok
        simp only [↓reduceIte] at hok
        rw [if_pos (show Option.any (fun d => decide (b.ts < d)) (some (b.ts + 360)) = true by
          simp only [Option.any, decide_eq_true_eq]; omega)] at hok
        injection hok with hok
        injection hok with h1 h2
        rw [← h2] at ho
        simp at ho
      | false =>
        rw [hroll] at hok
        simp only [Bool.false_eq_true, ↓reduceIte] at hok
        cases hblk : Option.any (fun d => decide (b.ts < d))
            (setSlTpForNewPosition w).trade_blocked_until with
        | true =>
          rw [hblk] at hok
          simp only [↓reduceIte] at hok
          injection hok with hok
          injection hok with h1 h2
          rw [← h2] at ho
          simp at ho
        | false =>
          rw [hblk] at hok
          simp only [Bool.false_eq_true, ↓reduceIte] at hok
          cases hpos : (setSlTpForNewPosition w).position with
          | some t =>
            rw [hpos] at hok
            dsimp only at hok
            cases hupd : updateTrailingTp cfg b.close t with
            | error e =>
              rw [hupd] at hok
              simp at hok
            | ok t2 =>
              rw [hupd] at hok
              dsimp only at hok
              injection hok with hok
              injection hok with h1 h2
              rw [← h2] at ho
              simp at ho
          | none =>
            rw [hpos] at hok
            dsimp only at hok
            injection hok with hok
            injection hok with h1 h2
            rw [← h2] at ho
            dsimp only at ho
            refine ⟨hi, lo, rfl, rfl, ?_⟩
            rw [← h1]
            unfold checkBreakouts at ho ⊢
            split at ho
            · rename_i hbuy
              rw [if_pos hbuy]
              unfold placeBreakoutTrade at ho ⊢
              dsimp only at ho ⊢
              split at ho
              · simp at ho
              · rename_i heps
                rw [if_neg heps]
                dsimp only at ho ⊢
                injection ho with ho
                subst ho
                exact ⟨rfl, rfl, hpos⟩
            · rename_i hbuy
              rw [if_neg hbuy]
              split at ho
              · rename_i hsell
                rw [if_pos hsell]
                unfold placeBreakoutTrade at ho ⊢
                dsimp only at ho ⊢
                split at ho
                · simp at ho
                · rename_i heps
                  rw [if_neg heps]
                  dsimp only at ho ⊢
                  injection ho with ho
                  subst ho
                  exact ⟨rfl, rfl, hpos⟩
              · simp at ho

/-- C4 (amended): the stop/target attached one bar after an entry decision are
the values stored at the decision bar — the target is `close × (1 ± take_profit)`
of the decision bar's close and the stop comes from the band edge — independent
of the realized entry price later reported by the engine. -/
theorem C4_attach_from_decision_bar (cfg : StratConfig) (w : World) (b : BarIn)
    (w1 : World) (out : StepOut) (hok : stratNext cfg w b = .ok (w1, out))
    (o : EntryOrder) (ho : out.order = some o) (fill : ℚ) :
    ∃ hi lo, b.psy_hi = some hi ∧ b.psy_lo = some lo ∧
      (setSlTpForNewPosition (engineFill fill w1 out)).position
        = some ⟨o.dir, fill, some (stopLevelOf cfg hi lo o.dir),
            some (match o.dir with
              | Dir.long => b.close * (1 + cfg.take_profit)
              | Dir.short => b.close * (1 - cfg.take_profit))⟩ := by
  obtain ⟨hi, lo, hhi, hlo, hsl, htp, hpos⟩ := stratNext_order_pending cfg w b w1 out hok o ho
  refine ⟨hi, lo, hhi, hlo, ?_⟩
  unfold engineFill
  rw [ho]
  dsimp only
  unfold setSlTpForNewPosition
  dsimp only
  rw [hsl, htp]
  simp

/-- Witness for the amended C4: at the C8 price scenario with an engine fill
of 50100, the bracket attached on the next bar is the stored one. -/
theorem C4_attach_witness :
    ∃ hi lo, (some (50000 : ℚ)) = some hi ∧ (some (49000 : ℚ)) = some lo ∧
      (setSlTpForNewPosition (engineFill 50100
          ⟨some 2, none, some 48995.1, some 50510.1, none⟩
          ⟨some ⟨Dir.long, 10⟩, false, false⟩)).position
        = some ⟨Dir.long, 50100, some (stopLevelOf defaultConfig hi lo Dir.long),
            some ((50010 : ℚ) * (1 + defaultConfig.take_profit))⟩ :=
  C4_attach_from_decision_bar defaultConfig ⟨some 2, none, none, none, none⟩
    ⟨10080, 50010, some 50000, some 49000, 1000000⟩
    ⟨some 2, none, some 48995.1, some 50510.1, none⟩
    ⟨some ⟨Dir.long, 10⟩, false, false⟩
    (by norm_num [stratNext, setSlTpForNewPosition, shouldUpdateWeeklyLevels, isSaturday22,
      weekdayOf, hourOf, minuteOf, isoWeekOf, isoWeekOfDay, isoYearIdx, calYearIdx, calYearIdxGo,
      janFirstDay, daysInYear, isLeapYear, janFourthDay, isoWeek1Monday, checkBreakouts,
      placeBreakoutTrade, buyBreakoutLevel, sellBreakoutLevel, stopLevelOf, sizeDiffOf, pyRound,
      Option.any, defaultConfig, abs])
    ⟨Dir.long, 10⟩ rfl 50100

/-- Counterexample to C4 as stated: the engine realizes the entry at 50100,
yet the target attached on the following bar is the stored
50010 × 1.01 = 50510.1, not realized_entry × 1.01 = 50601. -/
theorem C4_counterexample :
    stratNext defaultConfig ⟨some 2, none, none, none, none⟩
        ⟨10080, 50010, some 50000, some 49000, 1000000⟩
      = .ok (⟨some 2, none, some 48995.1, some 50510.1, none⟩,
          ⟨some ⟨Dir.long, 10⟩, false, false⟩) ∧
      (setSlTpForNewPosition (engineFill 50100
          ⟨some 2, none, some 48995.1, some 50510.1, none⟩
          ⟨some ⟨Dir.long, 10⟩, false, false⟩)).position
        = some ⟨Dir.long, 50100, some 48995.1, some 50510.1⟩ ∧
      (50510.1 : ℚ) ≠ 50100 * (1 + 1 / 100) := by
  refine ⟨?_, ?_, by norm_num⟩
  · norm_num [stratNext, setSlTpForNewPosition, shouldUpdateWeeklyLevels, isSaturday22,
      weekdayOf, hourOf, minuteOf, isoWeekOf, isoWeekOfDay, isoYearIdx, calYearIdx, calYearIdxGo,
      janFirstDay, daysInYear, isLeapYear, janFourthDay, isoWeek1Monday, checkBreakouts,
      placeBreakoutTrade, buyBreakoutLevel, sellBreakoutLevel, stopLevelOf, sizeDiffOf, pyRound,
      Option.any, defaultConfig, abs]
  · norm_num [setSlTpForNewPosition, engineFill]

/-! ## Claim C9: out-of-order bars -/

/-- Worlds whose open position always carries a target, attached or pending.
Every state reachable from `init` is of this shape, and it rules out the one
Python exception the per-bar code can raise (the `None` comparison in
`update_trailing_tp`). -/
def WellFormed (w : World) : Prop :=
  ∀ t, w.position = some t → t.tp.isSome = true ∨ w.pending_tp.isSome = true

theorem setSlTp_tp_isSome (w : World) (hw : WellFormed w) (t : Trade)
    (hp : (setSlTpForNewPosition w).position = some t) : t.tp.isSome = true := by
  obtain ⟨cw, tbu, psl, ptp, pos⟩ := w
  cases pos with
  | none => simp [setSlTpForNewPosition] at hp
  | some t0 =>
    have h0 := hw t0 rfl
    dsimp only at h0
    cases ptp with
    | some q =>
      simp only [setSlTpForNewPosition] at hp
      rw [if_pos (by simp)] at hp
      dsimp only at hp
      injection hp with hp
      subst hp
      split <;> rcases htp0 : t0.tp with _ | v <;> simp [htp0]
    | none =>
      have h0' : t0.tp.isSome = true := by
        rcases h0 with h | h
        · exact h
        · simp at h
      simp only [setSlTpForNewPosition] at hp
      by_cases hg : (psl.isSome || (none : Option ℚ).isSome) = true
      · rw [if_pos hg] at hp
        dsimp only at hp
        injection hp with hp
        subst hp
        simp only [Option.isSome_none, Bool.and_false, Bool.false_eq_true, ↓reduceIte]
        split
        · simpa using h0'
        · exact h0'
      · rw [if_neg hg] at hp
        injection hp with hp
        subst hp
        exact h0'

theorem updateTrailingTp_ok (cfg : StratConfig) (price : ℚ) (t : Trade)
    (hv : t.tp.isSome = true) : ∃ t2, updateTrailingTp cfg price t = .ok t2 := by
  obtain ⟨d, ep, sl, tp⟩ := t
  cases tp with
  | none => simp at hv
  | some v =>
    cases d with
    | long =>
      unfold updateTrailingTp
      dsimp only
      split
      · split
        · exact ⟨_, rfl⟩
        · exact ⟨_, rfl⟩
      · exact ⟨_, rfl⟩
    | short =>
      unfold updateTrailingTp
      dsimp only
      split
      · split
        · exact ⟨_, rfl⟩
        · exact ⟨_, rfl⟩
      · exact ⟨_, rfl⟩

/-- From a well-formed world, the per-bar step never raises: the only
exception site is guarded by an attached target. -/
theorem stratNext_ok_of_wf (cfg : StratConfig) (w : World) (hw : WellFormed w) (b : BarIn) :
    ∃ r, stratNext cfg w b = .ok r := by
  unfold stratNext
  cases hh : b.psy_hi with
  | none => exact ⟨_, rfl⟩
  | some hi =>
    cases hl : b.psy_lo with
    | none => exact ⟨_, rfl⟩
    | some lo =>
      dsimp only
      cases hroll : shouldUpdateWeeklyLevels (setSlTpForNewPosition w).current_week b.ts with
      | true =>
        simp only [↓reduceIte]
        rw [if_pos (show Option.any (fun d => decide (b.ts < d)) (some (b.ts + 360)) = true by
          simp only [Option.any, decide_eq_true_eq]; omega)]
        exact ⟨_, rfl⟩
      | false =>
        simp only [Bool.false_eq_true, ↓reduceIte]
        cases hblk : Option.any (fun d => decide (b.ts < d))
            (setSlTpForNewPosition w).trade_blocked_until with
        | true =>
          simp only [↓reduceIte]
          exact ⟨_, rfl⟩
        | false =>
          simp only [Bool.false_eq_true, ↓reduceIte]
          cases hpos : (setSlTpForNewPosition w).position with
          | none =>
            exact ⟨_, rfl⟩
          | some t =>
            dsimp only
            obtain ⟨t2, h2⟩ := updateTrailingTp_ok cfg b.close t (setSlTp_tp_isSome w hw t hpos)
            rw [h2]
            exact ⟨_, rfl⟩

/-- The step, run from a well-formed world, leaves a well-formed world. -/
theorem stratNext_wf_result (cfg : StratConfig) (w : World) (hw : WellFormed w) (b : BarIn)
    (w1 : World) (out : StepOut) (hok : stratNext cfg w b = .ok (w1, out)) :
    WellFormed w1 := by
  have hwf1 : WellFormed (setSlTpForNewPosition w) :=
    fun t ht => Or.inl (setSlTp_tp_isSome w hw t ht)
  unfold stratNext at hok
  cases hh : b.psy_hi with
  | none =>
    rw [hh] at hok
    dsimp only at hok
    injection hok with hok
    injection hok with h1 h2
    rw [← h1]
    exact hwf1
  | some hi =>
    cases hl : b.psy_lo with
    | none =>
      rw [hh, hl] at hok
      dsimp only at hok
      injection hok with hok
      injection hok with h1 h2
      rw [← h1]
      exact hwf1
    | some lo =>
      rw [hh, hl] at hok
      dsimp only at hok
      cases hroll : shouldUpdateWeeklyLevels (setSlTpForNewPosition w).current_week b.ts with
      | true =>
        rw [hroll] at hok
        simp only [↓reduceIte] at hok
        rw [if_pos (show Option.any (fun d => decide (b.ts < d)) (some (b.ts + 360)) = true by
          simp only [Option.any, decide_eq_true_eq]; omega)] at hok
        injection hok with hok
        injection hok with h1 h2
        rw [← h1]
        intro t ht
        simp at ht
      | false =>
        rw [hroll] at hok
        simp only [Bool.false_eq_true, ↓reduceIte] at hok
        cases hblk : Option.any (fun d => decide (b.ts < d))
            (setSlTpForNewPosition w).trade_blocked_until with
        | true =>
          rw [hblk] at hok
          simp only [↓reduceIte] at hok
          injection hok with hok
          injection hok with h1 h2
          rw [← h1]
          exact hwf1
        | false =>
          rw [hblk] at hok
          simp only [Bool.false_eq_true, ↓reduceIte] at hok
          cases hpos : (setSlTpForNewPosition w).position with
          | some t =>
            rw [hpos] at hok
            dsimp only at hok
            cases hupd : updateTrailingTp cfg b.close t with
            | error e =>
              rw [hupd] at hok
              simp at hok
            | ok t2 =>
              rw [hupd] at hok
              dsimp only at hok
              injection hok with hok
              injection hok with h1 h2
              rw [← h1]
              intro t' ht'
              simp only [] at ht'
              injection ht' with ht'
              subst ht'
              left
              have htpv := setSlTp_tp_isSome w hw t hpos
              obtain ⟨v, hv⟩ := Option.isSome_iff_exists.mp htpv
              exact (updateTrailingTp_mono cfg b.close t v hv _ hupd).2.1
          | none =>
            rw [hpos] at hok
            dsimp only at hok
            injection hok with hok
            injection hok with h1 h2
            rw [← h1]
            intro t' ht'
            unfold checkBreakouts at ht'
            split at ht'
            · unfold placeBreakoutTrade at ht'
              dsimp only at ht'
              split at ht'
              · rw [hpos] at ht'
                simp at ht'
              · dsimp only at ht'
                rw [hpos] at ht'
                simp at ht'
            · split at ht'
              · unfold placeBreakoutTrade at ht'
                dsimp only at ht'
                split at ht'
                · rw [hpos] at ht'
                  simp at ht'
                · dsimp only at ht'
                  rw [hpos] at ht'
                  simp at ht'
              · rw [hpos] at ht'
                simp at ht'

/-- One engine interaction after a well-formed step keeps the world
well-formed: a freshly filled order's bare position is covered by the pending
target stored when the order was placed. -/
theorem wf_preserved (cfg : StratConfig) (w : World) (hw : WellFormed w) (b : BarIn)
    (w1 : World) (out : StepOut) (hok : stratNext cfg w b = .ok (w1, out)) (fill : ℚ) :
    WellFormed (engineFill fill w1 out) := by
  cases ho : out.order with
  | some o =>
    intro t ht
    unfold engineFill at ht
    rw [ho] at ht
    dsimp only at ht
    injection ht with ht
    subst ht
    right
    obtain ⟨hi2, lo2, _, _, _, htp, _⟩ := stratNext_order_pending cfg w b w1 out hok o ho
    unfold engineFill
    rw [ho]
    dsimp only
    rw [htp]
    rfl
  | none =>
    have hred : engineFill fill w1 out = w1 := by
      unfold engineFill
      rw [ho]
    rw [hred]
    exact stratNext_wf_result cfg w hw b w1 out hok

/-- Whether a run finished without raising. -/
def runOk (r : Except Unit (World × List Nat)) : Bool :=
  match r with
  | .ok _ => true
  | .error _ => false

/-- C9 (amended): the state machine keeps no last-seen timestamp and performs
no ordering validation: from any well-formed state, a bar strictly older than
the bar just processed is evaluated by the same per-bar rules and the run
returns normally — no error is signalled on account of ordering. -/
theorem C9_no_order_check (cfg : StratConfig) (w : World) (hw : WellFormed w)
    (fills : Nat → ℚ) (b1 b2 : BarIn) (hold : b2.ts < b1.ts) :
    runOk (stratRunAux cfg fills 0 w [] [b1, b2]) = true := by
  obtain ⟨⟨w1, out1⟩, h1⟩ := stratNext_ok_of_wf cfg w hw b1
  have hw1 : WellFormed (engineFill (fills 0) w1 out1) :=
    wf_preserved cfg w hw b1 w1 out1 h1 (fills 0)
  obtain ⟨⟨w2, out2⟩, h2⟩ := stratNext_ok_of_wf cfg _ hw1 b2
  simp only [stratRunAux, h1, h2, runOk]

/-- Witness for the amended C9 at concrete decreasing timestamps. -/
theorem C9_no_order_check_witness :
    runOk (stratRunAux defaultConfig (fun _ => 1) 0 initWorld []
        [⟨10080, 1, some 2, some 1, 1⟩, ⟨10075, 1, some 2, some 1, 1⟩]) = true :=
  C9_no_order_check defaultConfig initWorld
    (fun t ht => absurd ht (by simp [initWorld])) (fun _ => 1)
    ⟨10080, 1, some 2, some 1, 1⟩ ⟨10075, 1, some 2, some 1, 1⟩ (by decide)

/-- Counterexample to C9 as stated: a two-bar run whose second bar is 5
minutes older than the first completes silently with a normal result — no
error fatal to the run is signalled. -/
theorem C9_counterexample :
    (10075 : Nat) < 10080 ∧
      stratRunAux defaultConfig (fun _ => 1) 0 initWorld []
          [⟨10080, 1, some 2, some 1, 1⟩, ⟨10075, 1, some 2, some 1, 1⟩]
        = .ok (⟨some 2, some 10440, none, none, none⟩, [10080]) := by
  exact ⟨by decide, by rfl⟩

/-! ## Claim C3: the full pipeline and period rollover -/

/-- A base-timeframe (5-minute) bar as the backtest consumes it. Only the
fields read downstream are kept: High/Low feed the hourly resample for the
band calculator, timestamp and Close feed the strategy. -/
structure Bar5 where
  ts : Nat
  high : ℚ
  low : ℚ
  close : ℚ
  deriving Repr, DecidableEq

/-- `resample_to_hourly`: group the base bars into hour buckets (`High: max`,
`Low: min`), one row per hour from the first bar's hour to the last bar's
hour, labelled by the bucket start. pandas emits all-NaN rows for hour buckets
with no data and the band calculator's `Series.max`/`min` skip NaN; the
embedding drops such rows, which is equivalent for every gapless series the
claims quantify over. `bucketRow` is the row of one hour bucket, by its hour
index. -/
def bucketRow (bars : List Bar5) (hh : Nat) : Option OhlcRow :=
  match bars.filter (fun b => b.ts / 60 == hh) with
  | [] => none
  | b :: bs =>
    some ⟨60 * hh, pyMax b.high (bs.map Bar5.high), pyMin b.low (bs.map Bar5.low)⟩

def resampleToHourly (bars : List Bar5) : List OhlcRow :=
  match bars with
  | [] => []
  | b0 :: _ =>
    (List.range ((bars.getLastD b0).ts / 60 + 1 - b0.ts / 60)).filterMap
      (fun i => bucketRow bars (b0.ts / 60 + i))

/-- `reindex(df.index)`: a base timestamp found in the hourly index takes the
hourly row's band columns, every other timestamp is NaN. -/
def reindexVal (hrows : List OhlcRow) (t : Nat) : Option (ℚ × ℚ) :=
  if (indexOf hrows).contains t then psyAssign hrows t else none

/-- `ffill()` down the base index: each bar carries the last value seen at or
before it, NaN until the first value. -/
def ffillScan (f : Nat → Option (ℚ × ℚ)) :
    Option (ℚ × ℚ) → List Nat → List (Option (ℚ × ℚ))
  | _, [] => []
  | carry, t :: ts =>
    match f t with
    | some v => some v :: ffillScan f (some v) ts
    | none => carry :: ffillScan f carry ts

/-- The per-bar band series built in `init`:
`df_levels['psy_hi'/'psy_lo'].reindex(self.data.df.index).ffill()`. -/
def psy5Series (bars : List Bar5) : List (Option (ℚ × ℚ)) :=
  ffillScan (reindexVal (resampleToHourly bars)) none (bars.map Bar5.ts)

/-- Assemble the strategy's per-bar inputs from a base bar and its band
values. -/
def mkBarIn (eqv : ℚ) (b : Bar5) (pv : Option (ℚ × ℚ)) : BarIn :=
  ⟨b.ts, b.close, pv.map Prod.fst, pv.map Prod.snd, eqv⟩

/-- The whole backtest: hourly resample, weekly band calculation,
reindex + forward-fill to the base timeframe, then the bar-by-bar strategy
loop from the `init` state. -/
def backtestRun (cfg : StratConfig) (fills : Nat → ℚ) (eqv : ℚ) (bars : List Bar5) :
    Except Unit (World × List Nat) :=
  stratRunAux cfg fills 0 initWorld []
    ((bars.zip (psy5Series bars)).map (fun p => mkBarIn eqv p.1 p.2))

/-- 24 contiguous aligned 5-minute bars from Saturday 2024-01-06 22:05 UTC
(minute 8525) onwards: data that begins strictly inside the anchor hour. -/
def barsC3 : List Bar5 := (List.range 24).map (fun k => ⟨8525 + 5 * k, 1, 1, 1⟩)

/-- Counterexample to C3 as stated: on contiguous, in-order 5-minute data
beginning at Saturday 22:05 (inside the anchor hour, so the exact anchor
timestamp 8520 is absent from the data), the rollover fires exactly once —
at 23:00 (minute 8580), a bar that does not match the Saturday-22:00 anchor
convention. -/
theorem C3_counterexample :
    barsC3.map Bar5.ts = (List.range 24).map (fun k => 8525 + 5 * k) ∧
      (∀ t ∈ barsC3.map Bar5.ts, isSaturday22 t = false) ∧
      (∃ w, backtestRun defaultConfig (fun _ => 1) 1 barsC3 = .ok (w, [8580])) ∧
      isSaturday22 8580 = false := by
  exact ⟨by decide, by decide, ⟨⟨some 1, some 8940, none, none, none⟩, by rfl⟩, by decide⟩

/-! ### Structure of the hourly resample on a contiguous aligned 5-minute grid -/

theorem getLastD_eq_max {x : Nat} (l : List Nat) :
    l.Pairwise (· < ·) → x ∈ l → (∀ y ∈ l, y ≤ x) → ∀ d, l.getLastD d = x := by
  induction l with
  | nil => intro _ hx; simp at hx
  | cons a l ih =>
    intro hsort hx hmax d
    cases l with
    | nil =>
      simp at hx
      simp [hx, List.getLastD_cons]
    | cons b l2 =>
      rw [List.getLastD_cons]
      have hab : a < b := List.rel_of_pairwise_cons hsort (by simp)
      have hbx : b ≤ x := hmax b (by simp)
      have hx2 : x ∈ b :: l2 := by
        rcases List.mem_cons.mp hx with h | h
        · exfalso; omega
        · exact h
      exact ih hsort.of_cons hx2 (fun y hy => hmax y (by simp [hy])) a

theorem rangeMap_cons (m : Nat) (f : Nat → Bar5) :
    (List.range (m + 1)).map f = f 0 :: (List.range m).map (fun j => f (j + 1)) := by
  rw [List.range_succ_eq_map, List.map_cons, List.map_map]
  rfl

theorem rangeMap_getLastD (m : Nat) (f : Nat → Bar5) (d : Bar5) :
    ((List.range (m + 1)).map f).getLastD d = f m := by
  rw [List.range_succ, List.map_append]
  simp [List.getLastD_concat]

theorem getD_range_map {α : Type} (g : Nat → α) (d : α) (n k : Nat) (hk : k < n) :
    ((List.range n).map g).getD k d = g k := by
  rw [List.getD_eq_getElem _ _ (by simpa using hk)]
  simp

theorem tsList_eq (t0 : Nat) (f : Nat → Bar5) (H0 : ∀ k, (f k).ts = t0 + 5 * k) (n : Nat) :
    ((List.range n).map f).map Bar5.ts = (List.range n).map (fun k => t0 + 5 * k) := by
  rw [List.map_map]
  congr 1
  funext k
  exact H0 k

theorem bucketRow_ts (bars : List Bar5) (hh : Nat) (r : OhlcRow)
    (h : bucketRow bars hh = some r) : r.ts = 60 * hh := by
  unfold bucketRow at h
  split at h
  · exact absurd h (by simp)
  · injection h with h2
    rw [← h2]

theorem bucketRow_isSome (bars : List Bar5) (hh : Nat) (b : Bar5) (hb : b ∈ bars)
    (hbh : b.ts / 60 = hh) : ∃ r, bucketRow bars hh = some r := by
  unfold bucketRow
  cases hc : bars.filter (fun x => x.ts / 60 == hh) with
  | nil =>
    exfalso
    have hmem : b ∈ bars.filter (fun x => x.ts / 60 == hh) :=
      List.mem_filter.mpr ⟨hb, by simp [hbh]⟩
    rw [hc] at hmem
    exact absurd hmem (List.not_mem_nil b)
  | cons x xs => exact ⟨_, rfl⟩

theorem resampleToHourly_grid (t0 m : Nat) (f : Nat → Bar5)
    (H0 : ∀ k, (f k).ts = t0 + 5 * k) :
    resampleToHourly ((List.range (m + 1)).map f)
      = (List.range ((t0 + 5 * m) / 60 + 1 - t0 / 60)).filterMap
          (fun i => bucketRow ((List.range (m + 1)).map f) (t0 / 60 + i)) := by
  have hbars := rangeMap_cons m f
  rw [hbars]
  simp only [resampleToHourly]
  rw [← hbars, rangeMap_getLastD m f, H0 m, H0 0]
  norm_num

theorem hourlyIndex_mem (t0 m : Nat) (f : Nat → Bar5)
    (H0 : ∀ k, (f k).ts = t0 + 5 * k)
    (s : Nat) (hs : s ∈ indexOf (resampleToHourly ((List.range (m + 1)).map f))) :
    ∃ i, i < (t0 + 5 * m) / 60 + 1 - t0 / 60 ∧ s = 60 * (t0 / 60 + i) := by
  rw [resampleToHourly_grid t0 m f H0] at hs
  unfold indexOf at hs
  rw [List.mem_map] at hs
  obtain ⟨r, hr, hrts⟩ := hs
  rw [List.mem_filterMap] at hr
  obtain ⟨i, hi, hbi⟩ := hr
  rw [List.mem_range] at hi
  exact ⟨i, hi, by rw [← hrts, bucketRow_ts _ _ _ hbi]⟩

theorem hourlyAnchor_is_bar (t0 m : Nat) (f : Nat → Bar5)
    (H0 : ∀ k, (f k).ts = t0 + 5 * k) (H1 : t0 % 5 = 0)
    (H2 : ¬(8520 < t0 % 10080 ∧ t0 % 10080 < 8580))
    (s : Nat) (hs : s ∈ indexOf (resampleToHourly ((List.range (m + 1)).map f)))
    (hsat : isSaturday22 s = true) :
    ∃ j, j ≤ m ∧ s = t0 + 5 * j := by
  obtain ⟨i, hi, rfl⟩ := hourlyIndex_mem t0 m f H0 s hs
  rw [isSaturday22_iff_mod] at hsat
  refine ⟨(60 * (t0 / 60 + i) - t0) / 5, ?_, ?_⟩ <;> omega

theorem hourlyIndex_contains (t0 m : Nat) (f : Nat → Bar5)
    (H0 : ∀ k, (f k).ts = t0 + 5 * k)
    (k : Nat) (hk : k ≤ m) (hmod : (t0 + 5 * k) % 60 = 0) :
    (t0 + 5 * k) ∈ indexOf (resampleToHourly ((List.range (m + 1)).map f)) := by
  have hfk : f k ∈ (List.range (m + 1)).map f :=
    List.mem_map.mpr ⟨k, List.mem_range.mpr (by omega), rfl⟩
  have hdiv : (f k).ts / 60 = t0 / 60 + ((t0 + 5 * k) / 60 - t0 / 60) := by
    rw [H0 k]; omega
  obtain ⟨r, hbr⟩ := bucketRow_isSome ((List.range (m + 1)).map f)
    (t0 / 60 + ((t0 + 5 * k) / 60 - t0 / 60)) (f k) hfk hdiv
  rw [resampleToHourly_grid t0 m f H0]
  unfold indexOf
  rw [List.mem_map]
  refine ⟨r, List.mem_filterMap.mpr ⟨_, List.mem_range.mpr (by omega), hbr⟩, ?_⟩
  rw [bucketRow_ts _ _ _ hbr]
  omega

theorem hourlyIndex_sorted (t0 m : Nat) (f : Nat → Bar5)
    (H0 : ∀ k, (f k).ts = t0 + 5 * k) :
    (indexOf (resampleToHourly ((List.range (m + 1)).map f))).Pairwise (· < ·) := by
  rw [resampleToHourly_grid t0 m f H0]
  unfold indexOf
  rw [List.pairwise_map, List.pairwise_filterMap]
  refine (List.pairwise_lt_range _).imp ?_
  intro i i' hlt r hr r' hr'
  rw [bucketRow_ts _ _ _ (Option.mem_def.mp hr), bucketRow_ts _ _ _ (Option.mem_def.mp hr')]
  omega

theorem hourlyIndex_getLastD (t0 m : Nat) (f : Nat → Bar5)
    (H0 : ∀ k, (f k).ts = t0 + 5 * k) :
    (indexOf (resampleToHourly ((List.range (m + 1)).map f))).getLastD 0
      = 60 * ((t0 + 5 * m) / 60) := by
  apply getLastD_eq_max _ (hourlyIndex_sorted t0 m f H0)
  · have hfm : f m ∈ (List.range (m + 1)).map f :=
      List.mem_map.mpr ⟨m, List.mem_range.mpr (by omega), rfl⟩
    have hdiv : (f m).ts / 60 = t0 / 60 + ((t0 + 5 * m) / 60 - t0 / 60) := by
      rw [H0 m]; omega
    obtain ⟨r, hbr⟩ := bucketRow_isSome ((List.range (m + 1)).map f)
      (t0 / 60 + ((t0 + 5 * m) / 60 - t0 / 60)) (f m) hfm hdiv
    rw [resampleToHourly_grid t0 m f H0]
    unfold indexOf
    rw [List.mem_map]
    refine ⟨r, List.mem_filterMap.mpr ⟨_, List.mem_range.mpr (by omega), hbr⟩, ?_⟩
    rw [bucketRow_ts _ _ _ hbr]
    omega
  · intro y hy
    obtain ⟨i, hi, rfl⟩ := hourlyIndex_mem t0 m f H0 y hy
    omega

/-! ### Forward-fill and the per-bar band series -/

theorem ffillScan_length (f : Nat → Option (ℚ × ℚ)) (c : Option (ℚ × ℚ)) (l : List Nat) :
    (ffillScan f c l).length = l.length := by
  induction l generalizing c with
  | nil => rfl
  | cons t ts ih =>
    unfold ffillScan
    cases hft : f t <;> simp [ih]

theorem ffillScan_getD_none (f : Nat → Option (ℚ × ℚ)) :
    ∀ (l : List Nat) (k : Nat), k < l.length →
      (∀ j, j ≤ k → f (l.getD j 0) = none) →
      (ffillScan f none l).getD k none = none := by
  intro l
  induction l with
  | nil => intro k hk; simp at hk
  | cons t ts ih =>
    intro k hk hall
    have h0 : f t = none := by
      have := hall 0 (Nat.zero_le k)
      simpa using this
    unfold ffillScan
    rw [h0]
    cases k with
    | zero => simp
    | succ k2 =>
      simp only [List.getD_cons_succ]
      exact ih k2 (by simpa using hk) (fun j hj => by simpa using hall (j + 1) (by omega))

theorem ffillScan_getD_some (f : Nat → Option (ℚ × ℚ)) :
    ∀ (l : List Nat) (c : Option (ℚ × ℚ)) (k : Nat), k < l.length →
      (∃ v, f (l.getD k 0) = some v) →
      ∃ v, (ffillScan f c l).getD k none = some v := by
  intro l
  induction l with
  | nil => intro c k hk; simp at hk
  | cons t ts ih =>
    intro c k hk hv
    unfold ffillScan
    cases k with
    | zero =>
      obtain ⟨v, hv⟩ := hv
      simp only [List.getD_cons_zero] at hv
      rw [hv]
      exact ⟨v, by simp⟩
    | succ k2 =>
      have hk2 : k2 < ts.length := by simpa using hk
      have hv2 : ∃ v, f (ts.getD k2 0) = some v := by simpa using hv
      cases hft : f t with
      | some v0 =>
        obtain ⟨v, hres⟩ := ih (some v0) k2 hk2 hv2
        exact ⟨v, by simpa using hres⟩
      | none =>
        obtain ⟨v, hres⟩ := ih c k2 hk2 hv2
        exact ⟨v, by simpa using hres⟩

theorem psy5Series_length (bars : List Bar5) : (psy5Series bars).length = bars.length := by
  unfold psy5Series
  rw [ffillScan_length]
  simp

theorem barsIn_eq (eqv : ℚ) (n : Nat) (f : Nat → Bar5) :
    (((List.range n).map f).zip (psy5Series ((List.range n).map f))).map
        (fun p => mkBarIn eqv p.1 p.2)
      = (List.range n).map (fun j =>
          mkBarIn eqv (f j) ((psy5Series ((List.range n).map f)).getD j none)) := by
  apply List.ext_getElem
  · simp [psy5Series_length]
  · intro i h1 h2
    have hi : i < n := by simpa using h2
    have hip : i < (psy5Series ((List.range n).map f)).length := by
      rw [psy5Series_length]
      simpa using hi
    simp only [List.getElem_map, List.getElem_zip, List.getElem_range]
    rw [List.getD_eq_getElem _ _ hip]

/-! ### Where the band columns are defined -/

theorem mem_sessionStarts {df : List OhlcRow} {s : Nat} :
    s ∈ sessionStarts df ↔ s ∈ indexOf df ∧ isSaturday22 s = true := by
  unfold sessionStarts
  rw [mem_sortNat, List.mem_filter]

theorem psyAssign_none_of_lt (df : List OhlcRow) (t : Nat)
    (h : ∀ s ∈ sessionStarts df, t < s) : psyAssign df t = none := by
  unfold psyAssign applySessions
  refine applyFold_skip df (sessionStarts df) ((indexOf df).getLastD 0) t
    (List.range (sessionStarts df).length) (fun _ => none) ?_
  intro i hi
  simp only [List.mem_range] at hi
  rintro ⟨hc1, -⟩
  have hmem : (sessionStarts df).getD i 0 ∈ sessionStarts df := by
    rw [List.getD_eq_getElem _ _ hi]
    exact List.getElem_mem hi
  exact absurd hc1 (Nat.not_le_of_lt (h _ hmem))

theorem sessionStarts_sorted_lt (df : List OhlcRow)
    (hsort : (indexOf df).Pairwise (· < ·)) :
    (sessionStarts df).Pairwise (· < ·) := by
  rw [sessionStarts_eq_filter df ((hsort.filter isSaturday22).imp Nat.le_of_lt)]
  exact hsort.filter isSaturday22

theorem psyAssign_some_at_anchor (df : List OhlcRow)
    (hsort : (indexOf df).Pairwise (· < ·))
    (a : Nat) (ha : a ∈ sessionStarts df) (b : ℚ × ℚ) (hb : bandFor df a = some b)
    (hlast : a < (indexOf df).getLastD 0) :
    psyAssign df a = some b := by
  obtain ⟨i, hget⟩ := List.mem_iff_get.mp ha
  have hi : i.val < (sessionStarts df).length := i.isLt
  have hgetD : (sessionStarts df).getD i.val 0 = a := by
    rw [List.getD_eq_getElem _ _ hi, ← hget]
    rfl
  apply psyAssign_projection df hsort i.val hi b (by rw [hgetD]; exact hb) a
    (le_of_eq hgetD)
  unfold sessionEnd
  split
  · rename_i hlen
    have hlt := List.pairwise_iff_get.mp (sessionStarts_sorted_lt df hsort) i
      ⟨i.val + 1, hlen⟩ (by rw [Fin.lt_def]; exact Nat.lt_succ_self _)
    rw [List.getD_eq_getElem _ _ hlen, ← hget]
    exact hlt
  · exact hlast

theorem bandFor_isSome_of_window (df : List OhlcRow) (a : Nat)
    (r : OhlcRow) (hr : r ∈ df) (h1 : a ≤ r.ts) (h2 : r.ts < a + 60) :
    ∃ p, bandFor df a = some p := by
  have hw : (a + 60 * 0, a + 60 * 0 + 60) ∈ windowBounds a := by
    unfold windowBounds
    exact List.mem_cons_of_mem _ (List.mem_map.mpr ⟨0, List.mem_range.mpr (by omega), rfl⟩)
  have hrw : r ∈ rowsInWindow df (a + 60 * 0) (a + 60 * 0 + 60) := by
    unfold rowsInWindow
    rw [List.mem_filter]
    refine ⟨hr, ?_⟩
    simp only [Bool.and_eq_true, decide_eq_true_eq]
    omega
  obtain ⟨hl, hhl⟩ : ∃ hl, hlOfWindow df (a + 60 * 0) (a + 60 * 0 + 60) = some hl := by
    unfold hlOfWindow
    cases hc : rowsInWindow df (a + 60 * 0) (a + 60 * 0 + 60) with
    | nil => rw [hc] at hrw; exact absurd hrw (List.not_mem_nil r)
    | cons x xs => exact ⟨_, rfl⟩
  have h1mem : hl.1
      ∈ (windowBounds a).filterMap (fun w => (hlOfWindow df w.1 w.2).map Prod.fst) :=
    List.mem_filterMap.mpr ⟨_, hw, by rw [hhl]; rfl⟩
  have h2mem : hl.2
      ∈ (windowBounds a).filterMap (fun w => (hlOfWindow df w.1 w.2).map Prod.snd) :=
    List.mem_filterMap.mpr ⟨_, hw, by rw [hhl]; rfl⟩
  have hWHL : windowHL df a
      = ((windowBounds a).filterMap (fun w => (hlOfWindow df w.1 w.2).map Prod.fst),
         (windowBounds a).filterMap (fun w => (hlOfWindow df w.1 w.2).map Prod.snd)) := by
    unfold windowHL
    rw [windowHL_foldl]
    simp
  unfold bandFor
  rw [hWHL]
  cases hc1 : (windowBounds a).filterMap (fun w => (hlOfWindow df w.1 w.2).map Prod.fst) with
  | nil => rw [hc1] at h1mem; exact absurd h1mem (List.not_mem_nil _)
  | cons x xs =>
    cases hc2 : (windowBounds a).filterMap (fun w => (hlOfWindow df w.1 w.2).map Prod.snd) with
    | nil => rw [hc2] at h2mem; exact absurd h2mem (List.not_mem_nil _)
    | cons y ys => exact ⟨_, rfl⟩

theorem psyAt_none (t0 n : Nat) (f : Nat → Bar5)
    (H0 : ∀ k, (f k).ts = t0 + 5 * k) (H1 : t0 % 5 = 0)
    (H2 : ¬(8520 < t0 % 10080 ∧ t0 % 10080 < 8580))
    (k : Nat) (hk : k < n)
    (hall : ∀ j, j ≤ k → isSaturday22 (t0 + 5 * j) = false) :
    (psy5Series ((List.range n).map f)).getD k none = none := by
  obtain ⟨m, rfl⟩ : ∃ m, n = m + 1 := ⟨n - 1, by omega⟩
  unfold psy5Series
  rw [tsList_eq t0 f H0 (m + 1)]
  apply ffillScan_getD_none
  · simpa using hk
  · intro j hj
    rw [getD_range_map _ _ _ _ (by omega : j < m + 1)]
    unfold reindexVal
    split
    · apply psyAssign_none_of_lt
      intro s hs
      obtain ⟨hsidx, hssat⟩ := mem_sessionStarts.mp hs
      obtain ⟨j2, hj2, rfl⟩ := hourlyAnchor_is_bar t0 m f H0 H1 H2 s hsidx hssat
      by_cases hj2k : j2 ≤ k
      · rw [hall j2 hj2k] at hssat
        simp at hssat
      · omega
    · rfl

theorem psyAt_some (t0 n : Nat) (f : Nat → Bar5)
    (H0 : ∀ k, (f k).ts = t0 + 5 * k)
    (k : Nat) (hk : k < n) (hksat : isSaturday22 (t0 + 5 * k) = true)
    (hroom : k + 13 ≤ n) :
    ∃ p, (psy5Series ((List.range n).map f)).getD k none = some p := by
  obtain ⟨m, rfl⟩ : ∃ m, n = m + 1 := ⟨n - 1, by omega⟩
  have hmod : (t0 + 5 * k) % 60 = 0 := by
    rw [isSaturday22_iff_mod] at hksat
    omega
  have hidx : (t0 + 5 * k) ∈ indexOf (resampleToHourly ((List.range (m + 1)).map f)) :=
    hourlyIndex_contains t0 m f H0 k (by omega) hmod
  have hidx2 := hidx
  unfold indexOf at hidx2
  obtain ⟨row, hrowmem, hrowts⟩ := List.mem_map.mp hidx2
  obtain ⟨p, hband⟩ := bandFor_isSome_of_window (resampleToHourly ((List.range (m + 1)).map f))
    (t0 + 5 * k) row hrowmem (le_of_eq hrowts.symm) (by rw [hrowts]; omega)
  unfold psy5Series
  rw [tsList_eq t0 f H0 (m + 1)]
  apply ffillScan_getD_some
  · simpa using hk
  · rw [getD_range_map _ _ _ _ (by omega : k < m + 1)]
    unfold reindexVal
    rw [if_pos (List.elem_eq_true_of_mem hidx)]
    refine ⟨p, ?_⟩
    apply psyAssign_some_at_anchor _ (hourlyIndex_sorted t0 m f H0) _
      (mem_sessionStarts.mpr ⟨hidx, hksat⟩) _ hband ?_
    rw [hourlyIndex_getLastD t0 m f H0]
    omega

/-! ### When one step rolls the week over -/

theorem shouldUpdate_none (t : Nat) : shouldUpdateWeeklyLevels none t = true := by
  simp [shouldUpdateWeeklyLevels]

theorem shouldUpdate_some_nonanchor (wk : Nat) (t : Nat) (h : isSaturday22 t = false) :
    shouldUpdateWeeklyLevels (some wk) t = false := by
  simp [shouldUpdateWeeklyLevels, h]

theorem shouldUpdate_some_anchor (wk : Nat) (t : Nat) (h : isSaturday22 t = true)
    (hne : wk ≠ isoWeekOf t) : shouldUpdateWeeklyLevels (some wk) t = true := by
  simp [shouldUpdateWeeklyLevels, h, hne]

theorem checkBreakouts_week (cfg : StratConfig) (equity hi lo price : ℚ) (w : World) :
    (checkBreakouts cfg equity hi lo price w).1.current_week = w.current_week := by
  unfold checkBreakouts placeBreakoutTrade
  dsimp only
  split
  · split <;> rfl
  · split
    · split <;> rfl
    · rfl

theorem engineFill_week (fill : ℚ) (w : World) (out : StepOut) :
    (engineFill fill w out).current_week = w.current_week := by
  unfold engineFill
  split <;> rfl

/-- One executed step rolls exactly when the bar's band columns are defined
and `should_update_weekly_levels` fires, and the stored week advances to the
bar's ISO week exactly then. -/
theorem stratNext_rolled_week (cfg : StratConfig) (w : World) (b : BarIn)
    (w1 : World) (out : StepOut) (hok : stratNext cfg w b = .ok (w1, out)) :
    out.rolled = (b.psy_hi.isSome && b.psy_lo.isSome
        && shouldUpdateWeeklyLevels w.current_week b.ts) ∧
      w1.current_week
        = (if out.rolled then some (isoWeekOf b.ts) else w.current_week) := by
  unfold stratNext at hok
  cases hh : b.psy_hi with
  | none =>
    rw [hh] at hok
    dsimp only at hok
    injection hok with hok
    injection hok with h1 h2
    constructor
    · rw [← h2]
      simp
    · rw [← h1, ← h2]
      simp [setSlTp_week]
  | some hi =>
    cases hl : b.psy_lo with
    | none =>
      rw [hh, hl] at hok
      dsimp only at hok
      injection hok with hok
      injection hok with h1 h2
      constructor
      · rw [← h2]
        simp
      · rw [← h1, ← h2]
        simp [setSlTp_week]
    | some lo =>
      rw [hh, hl] at hok
      dsimp only at hok
      have hsu : shouldUpdateWeeklyLevels (setSlTpForNewPosition w).current_week b.ts
          = shouldUpdateWeeklyLevels w.current_week b.ts := by
        rw [setSlTp_week]
      cases hroll : shouldUpdateWeeklyLevels (setSlTpForNewPosition w).current_week b.ts with
      | true =>
        rw [hroll] at hok
        simp only [↓reduceIte] at hok
        rw [if_pos (show Option.any (fun d => decide (b.ts < d)) (some (b.ts + 360)) = true by
          simp only [Option.any, decide_eq_true_eq]; omega)] at hok
        injection hok with hok
        injection hok with h1 h2
        constructor
        · rw [← h2, ← hsu, hroll]
          simp
        · rw [← h1, ← h2]
          simp
      | false =>
        rw [hroll] at hok
        simp only [Bool.false_eq_true, ↓reduceIte] at hok
        have hsufalse : shouldUpdateWeeklyLevels w.current_week b.ts = false := by
          rw [← hsu]; exact hroll
        cases hblk : Option.any (fun d => decide (b.ts < d))
            (setSlTpForNewPosition w).trade_blocked_until with
        | true =>
          rw [hblk] at hok
          simp only [↓reduceIte] at hok
          injection hok with hok
          injection hok with h1 h2
          constructor
          · rw [← h2, hsufalse]
            simp
          · rw [← h1, ← h2]
            simp [setSlTp_week]
        | false =>
          rw [hblk] at hok
          simp only [Bool.false_eq_true, ↓reduceIte] at hok
          cases hpos : (setSlTpForNewPosition w).position with
          | some t =>
            rw [hpos] at hok
            dsimp only at hok
            cases hupd : updateTrailingTp cfg b.close t with
            | error e =>
              rw [hupd] at hok
              simp at hok
            | ok t2 =>
              rw [hupd] at hok
              dsimp only at hok
              injection hok with hok
              injection hok with h1 h2
              constructor
              · rw [← h2, hsufalse]
                simp
              · rw [← h1, ← h2]
                simp [setSlTp_week]
          | none =>
            rw [hpos] at hok
            dsimp only at hok
            injection hok with hok
            injection hok with h1 h2
            constructor
            · rw [← h2, hsufalse]
              simp
            · rw [← h1, ← h2]
              simp [checkBreakouts_week, setSlTp_week]

/-- The latest Saturday-22:00 grid timestamp strictly before index `k` of the
5-minute grid starting at `t0`. -/
def lastSat22Before (t0 : Nat) : Nat → Option Nat
  | 0 => none
  | k + 1 => if isSaturday22 (t0 + 5 * k) then some (t0 + 5 * k) else lastSat22Before t0 k

theorem lastSat22Before_none (t0 : Nat) :
    ∀ k, lastSat22Before t0 k = none → ∀ j, j < k → isSaturday22 (t0 + 5 * j) = false := by
  intro k
  induction k with
  | zero => intro _ j hj; exact absurd hj (Nat.not_lt_zero j)
  | succ k ih =>
    intro h j hj
    unfold lastSat22Before at h
    split at h
    · exact absurd h (by simp)
    · rename_i hsat
      rcases Nat.lt_succ_iff_lt_or_eq.mp hj with hlt | rfl
      · exact ih h j hlt
      · simp only [Bool.not_eq_true] at hsat
        exact hsat

theorem lastSat22Before_some (t0 : Nat) :
    ∀ k a, lastSat22Before t0 k = some a →
      ∃ j, j < k ∧ a = t0 + 5 * j ∧ isSaturday22 a = true ∧
        ∀ j2, j < j2 → j2 < k → isSaturday22 (t0 + 5 * j2) = false := by
  intro k
  induction k with
  | zero => intro a h; exact absurd h (by simp [lastSat22Before])
  | succ k ih =>
    intro a h
    unfold lastSat22Before at h
    split at h
    · rename_i hsat
      injection h with h
      refine ⟨k, by omega, h.symm, h ▸ hsat, ?_⟩
      intro j2 h1 h2
      exact absurd h1 (by omega)
    · rename_i hsat
      obtain ⟨j, hj, hja, hsa, hafter⟩ := ih a h
      refine ⟨j, by omega, hja, hsa, ?_⟩
      intro j2 h1 h2
      rcases Nat.lt_succ_iff_lt_or_eq.mp h2 with hlt | rfl
      · exact hafter j2 h1 hlt
      · simp only [Bool.not_eq_true] at hsat
        exact hsat

/-- Two consecutive anchors on a contiguous aligned 5-minute grid are exactly
one ISO week (10080 minutes) apart. -/
theorem lastSat22_gap (t0 : Nat) (k : Nat) (a : Nat)
    (ha : lastSat22Before t0 k = some a)
    (hsat : isSaturday22 (t0 + 5 * k) = true) :
    a + 10080 = t0 + 5 * k := by
  obtain ⟨j, hj, haj, hsa, hafter⟩ := lastSat22Before_some t0 k a ha
  subst haj
  rw [isSaturday22_iff_mod] at hsa hsat
  by_contra hne
  have hb1 : j < k - 2016 := by omega
  have hb2 : k - 2016 < k := by omega
  have hmid := hafter (k - 2016) hb1 hb2
  have hmid2 : isSaturday22 (t0 + 5 * (k - 2016)) = true := by
    rw [isSaturday22_iff_mod]
    omega
  rw [hmid2] at hmid
  simp at hmid

/-- The run over the remaining grid suffix logs exactly its anchor
timestamps, keeping the week state in step with the last anchor seen. -/
theorem runAux_roll_log (cfg : StratConfig) (fills : Nat → ℚ) (eqv : ℚ)
    (t0 n : Nat) (f : Nat → Bar5)
    (H0 : ∀ k, (f k).ts = t0 + 5 * k) (H1 : t0 % 5 = 0)
    (H2 : ¬(8520 < t0 % 10080 ∧ t0 % 10080 < 8580))
    (H3 : ∀ k, k < n → (t0 + 5 * k) % 10080 = 8520 → k + 13 ≤ n) :
    ∀ m k, k + m = n → ∀ (w : World) (log : List Nat), WellFormed w →
      (match lastSat22Before t0 k with
       | none => w.current_week = none
       | some a => w.current_week = some (isoWeekOf a)) →
      ∃ w2, stratRunAux cfg fills k w log
          ((List.range' k m).map (fun j =>
            mkBarIn eqv (f j) ((psy5Series ((List.range n).map f)).getD j none)))
        = .ok (w2, log ++ ((List.range' k m).map (fun j => t0 + 5 * j)).filter isSaturday22) := by
  intro m
  induction m with
  | zero =>
    intro k hkm w log hwf hweek
    refine ⟨w, ?_⟩
    simp [stratRunAux]
  | succ m ih =>
    intro k hkm w log hwf hweek
    have hkn : k < n := by omega
    rw [List.range'_succ]
    simp only [List.map_cons, List.filter_cons]
    cases hsat : isSaturday22 (t0 + 5 * k) with
    | true =>
      have hmodsat := (isSaturday22_iff_mod (t0 + 5 * k)).mp hsat
      have hroom : k + 13 ≤ n := H3 k hkn hmodsat
      obtain ⟨p, hp⟩ := psyAt_some t0 n f H0 k hkn hsat hroom
      rw [hp]
      obtain ⟨⟨w1, out⟩, hok⟩ := stratNext_ok_of_wf cfg w hwf (mkBarIn eqv (f k) (some p))
      obtain ⟨hrolled, hweekeq⟩ := stratNext_rolled_week cfg w _ w1 out hok
      have hts : (mkBarIn eqv (f k) (some p)).ts = t0 + 5 * k := by
        simp [mkBarIn, H0 k]
      have hsu : shouldUpdateWeeklyLevels w.current_week (t0 + 5 * k) = true := by
        cases hls : lastSat22Before t0 k with
        | none =>
          have hcw : w.current_week = none := by rw [hls] at hweek; exact hweek
          rw [hcw]
          exact shouldUpdate_none _
        | some a =>
          have hcw : w.current_week = some (isoWeekOf a) := by rw [hls] at hweek; exact hweek
          rw [hcw]
          refine shouldUpdate_some_anchor _ _ hsat ?_
          have hgap : a + 10080 = t0 + 5 * k := lastSat22_gap t0 k a hls hsat
          rw [← hgap]
          exact Ne.symm (isoWeekOf_anchor_succ_ne a)
      have hro : out.rolled = true := by
        rw [hrolled, hts, hsu]
        simp [mkBarIn]
      have hwf1 : WellFormed (engineFill (fills k) w1 out) :=
        wf_preserved cfg w hwf _ w1 out hok (fills k)
      have hls1 : lastSat22Before t0 (k + 1) = some (t0 + 5 * k) := by
        simp [lastSat22Before, hsat]
      have hweek1 : (match lastSat22Before t0 (k + 1) with
          | none => (engineFill (fills k) w1 out).current_week = none
          | some a => (engineFill (fills k) w1 out).current_week = some (isoWeekOf a)) := by
        rw [hls1]
        show (engineFill (fills k) w1 out).current_week = some (isoWeekOf (t0 + 5 * k))
        rw [engineFill_week, hweekeq, hro]
        simp [mkBarIn, H0 k]
      obtain ⟨w2, hrun⟩ := ih (k + 1) (by omega) (engineFill (fills k) w1 out)
        (log ++ [t0 + 5 * k]) hwf1 hweek1
      refine ⟨w2, ?_⟩
      unfold stratRunAux
      rw [hok]
      dsimp only
      rw [hro]
      simp only [↓reduceIte]
      rw [hts, hrun]
      simp [List.append_assoc]
    | false =>
      obtain ⟨⟨w1, out⟩, hok⟩ := stratNext_ok_of_wf cfg w hwf
        (mkBarIn eqv (f k) ((psy5Series ((List.range n).map f)).getD k none))
      obtain ⟨hrolled, hweekeq⟩ := stratNext_rolled_week cfg w _ w1 out hok
      have hts : (mkBarIn eqv (f k) ((psy5Series ((List.range n).map f)).getD k none)).ts
          = t0 + 5 * k := by simp [mkBarIn, H0 k]
      have hro : out.rolled = false := by
        rw [hrolled, hts]
        cases hls : lastSat22Before t0 k with
        | none =>
          have hnone : (psy5Series ((List.range n).map f)).getD k none = none := by
            apply psyAt_none t0 n f H0 H1 H2 k hkn
            intro j hj
            rcases Nat.lt_or_ge j k with hlt | hge
            · exact lastSat22Before_none t0 k hls j hlt
            · have hjk : j = k := by omega
              rw [hjk]
              exact hsat
          rw [hnone]
          simp [mkBarIn]
        | some a =>
          have hcw : w.current_week = some (isoWeekOf a) := by rw [hls] at hweek; exact hweek
          rw [hcw, shouldUpdate_some_nonanchor _ _ hsat]
          simp
      have hwf1 : WellFormed (engineFill (fills k) w1 out) :=
        wf_preserved cfg w hwf _ w1 out hok (fills k)
      have hcw1 : (engineFill (fills k) w1 out).current_week = w.current_week := by
        rw [engineFill_week, hweekeq, hro]
        simp
      have hls1 : lastSat22Before t0 (k + 1) = lastSat22Before t0 k := by
        simp [lastSat22Before, hsat]
      have hweek1 : (match lastSat22Before t0 (k + 1) with
          | none => (engineFill (fills k) w1 out).current_week = none
          | some a => (engineFill (fills k) w1 out).current_week = some (isoWeekOf a)) := by
        rw [hls1]
        cases hls : lastSat22Before t0 k with
        | none =>
          show (engineFill (fills k) w1 out).current_week = none
          rw [hcw1]
          rw [hls] at hweek
          exact hweek
        | some a =>
          show (engineFill (fills k) w1 out).current_week = some (isoWeekOf a)
          rw [hcw1]
          rw [hls] at hweek
          exact hweek
      obtain ⟨w2, hrun⟩ := ih (k + 1) (by omega) (engineFill (fills k) w1 out) log hwf1 hweek1
      refine ⟨w2, ?_⟩
      unfold stratRunAux
      rw [hok]
      dsimp only
      rw [hro]
      simp only [Bool.false_eq_true, ↓reduceIte]
      rw [List.append_nil]
      exact hrun

/-- C3 (amended): over contiguous, in-order, 5-minute-aligned data that does
not begin strictly inside an anchor hour and that extends at least one hour
past every Saturday-22:00 bar it contains, the whole pipeline
(hourly resample, band calculation, reindex + forward-fill, bar loop) fires
the weekly rollover — position force-close, week update, six-hour cooldown —
exactly at the bars whose timestamp is Saturday 22:00 UTC, once per such
anchor and at no other bar, and the run raises no error. -/
theorem C3_rollover (cfg : StratConfig) (fills : Nat → ℚ) (eqv : ℚ)
    (t0 n : Nat) (f : Nat → Bar5)
    (H0 : ∀ k, (f k).ts = t0 + 5 * k)
    (H1 : t0 % 5 = 0)
    (H2 : ¬(8520 < t0 % 10080 ∧ t0 % 10080 < 8580))
    (H3 : ∀ k, k < n → (t0 + 5 * k) % 10080 = 8520 → k + 13 ≤ n) :
    ∃ w, backtestRun cfg fills eqv ((List.range n).map f)
      = .ok (w, (((List.range n).map f).map Bar5.ts).filter isSaturday22) := by
  obtain ⟨w2, hrun⟩ := runAux_roll_log cfg fills eqv t0 n f H0 H1 H2 H3 n 0 (by omega)
    initWorld [] (fun t ht => absurd ht (by simp [initWorld]))
    (show initWorld.current_week = none from rfl)
  refine ⟨w2, ?_⟩
  unfold backtestRun
  rw [barsIn_eq eqv n f]
  rw [tsList_eq t0 f H0 n]
  rw [congrArg (List.map (fun j =>
      mkBarIn eqv (f j) ((psy5Series ((List.range n).map f)).getD j none)))
    (List.range_eq_range' n)]
  rw [congrArg (List.map (fun k => t0 + 5 * k)) (List.range_eq_range' n)]
  rw [hrun]
  simp

/-- Witness for the amended C3: thirteen 5-minute bars from the anchor
Saturday 2024-01-06 22:00 UTC (minute 8520) onwards; the rollover log is
exactly the anchor timestamps present in the data. -/
theorem C3_rollover_witness :
    (8520 : Nat) % 5 = 0 ∧
    ∃ w, backtestRun defaultConfig (fun _ => 1) 1
        ((List.range 13).map (fun k => (⟨8520 + 5 * k, 1, 1, 1⟩ : Bar5)))
      = .ok (w, (((List.range 13).map (fun k => (⟨8520 + 5 * k, 1, 1, 1⟩ : Bar5))).map
          Bar5.ts).filter isSaturday22) :=
  ⟨by decide,
    C3_rollover defaultConfig (fun _ => 1) 1 8520 13
      (fun k => (⟨8520 + 5 * k, 1, 1, 1⟩ : Bar5)) (fun k => rfl) (by decide) (by decide)
      (by decide)⟩

end PsyLevel
